import Mathlib

/-!
# Verification of the JSC baseline JPEG codec core

This development shallowly embeds the parts of the JSC library (a trimmed
baseline-sequential JPEG encoder/decoder derived from the IJG codebase)
that the specification's claims are about, and proves or refutes each
claim against the embedding.

Conventions used throughout:
* C signed/unsigned 32-bit machine integers are modelled as `Int` or `Nat`
  with explicit reduction `% 2 ^ 32` at the points where the C code can
  wrap (the code itself documents that it assumes a two's-complement
  machine).
* Fallible C functions that return `FALSE` to request suspension are
  modelled as `Option`-valued functions (`none` = suspension).
* `JSC_ASSERT` guards appear as hypotheses of the theorems, never inside
  the definitions, so the definitions compute exactly what the C computes
  on assertion-passing inputs.

Sources quoted in the doc comments refer to files of the JSC repository
(`jcparam.c`, `jchuff.c`, `jdhuff.c`, `jdmarker.c`, `jcmaster.c`,
`jdinput.c`, `jsc_compress.c`, `jutils.c`).
-/

namespace Jsc

/-! ## Quality scaling and quantization tables (`jcparam.c`) -/

/-- `jpeg_quality_scaling` from `jcparam.c`: clamp the user quality to
`1..100` (`if (quality <= 0) quality = 1; if (quality > 100) quality = 100;`)
then map `quality < 50` to `5000/quality` and the rest to
`200 - quality*2`. -/
def jpeg_quality_scaling (quality : Int) : Int :=
  let q1 := if quality ≤ 0 then 1 else quality
  let q2 := if q1 > 100 then 100 else q1
  if q2 < 50 then 5000 / q2 else 200 - q2 * 2

/-- The value the `quality` local variable holds after the two clamping
`if`s at the top of `jpeg_quality_scaling` (the divisor of the `5000/quality`
branch). -/
def qualityClamped (quality : Int) : Int :=
  let q1 := if quality ≤ 0 then 1 else quality
  if q1 > 100 then 100 else q1

/-- One entry of the quantization table computed by `jpeg_add_quant_table`
(`jcparam.c`): `temp = (basic_table[i] * scale_factor + 50) / 100`, then
`temp <= 0 -> 1`, `temp > 32767 -> 32767`, and with `force_baseline`
additionally `temp > 255 -> 255`. -/
def jpeg_add_quant_entry (basic : Nat) (scale_factor : Int)
    (force_baseline : Bool) : Int :=
  let temp : Int := ((basic : Int) * scale_factor + 50) / 100
  let temp := if temp ≤ 0 then 1 else temp
  let temp := if temp > 32767 then 32767 else temp
  if force_baseline && decide (temp > 255) then 255 else temp

/-! ## Image-dimension checks (`jcmaster.c`, `jdinput.c`, `jdmarker.c`) -/

/-- `JPEG_MAX_DIMENSION` from the global-types configuration header. -/
def JPEG_MAX_DIMENSION : Nat := 65500

/-- The dimension sanity checks of the encoder's `initial_setup`
(`jcmaster.c`): `jpeg_height > 0`, `jpeg_width > 0`,
`jpeg_height <= JPEG_MAX_DIMENSION`, `jpeg_width <= JPEG_MAX_DIMENSION`
(with `jpeg_width = image_width`, `jpeg_height = image_height` per
`jcinit.c`). `true` = all assertions pass. -/
def encoderDimChecks (width height : Nat) : Bool :=
  decide (0 < height) && decide (0 < width) &&
  decide (height ≤ JPEG_MAX_DIMENSION) && decide (width ≤ JPEG_MAX_DIMENSION)

/-- The decoder-side dimension checks: `get_sof` (`jdmarker.c`) rejects
`image_height <= 0 || image_width <= 0` with `JERR_EMPTY_IMAGE`, and the
decoder's `initial_setup` (`jdinput.c`) checks both dimensions against
`JPEG_MAX_DIMENSION`. `true` = the frame passes all dimension checks. -/
def decoderDimChecks (width height : Nat) : Bool :=
  decide (0 < height) && decide (0 < width) &&
  decide (height ≤ JPEG_MAX_DIMENSION) && decide (width ≤ JPEG_MAX_DIMENSION)

/-! ## Restart sectioning (`jsc_compress.c`) -/

/-- `jdiv_round_up` from `jutils.c`: `(a + b - 1) / b` (callers guarantee
`a >= 0`, `b > 0`). -/
def jdiv_round_up (a b : Int) : Int := (a + b - 1) / b

/-- The `n_restart_sections` argument `jsc_compress` passes to
`jsc_compress_rst`: `image->height / DCTSIZE2` with `DCTSIZE2 = 64`. -/
def jscNRestartSections (height : Nat) : Nat := height / 64

/-- `set_restart_sections` from `jsc_compress.c`.  When
`n_restart_sections > 1` it computes `max_v_samp_factor` over the
components (starting from 1), then
`MCU_rows_in_scan = jdiv_round_up(image_width, max_v_samp_factor * block_size)`
— note the source reads `cinfo->image_width` here although its comment
says "determine image height in MCU blocks" — and sets
`restart_in_rows = jdiv_round_up(MCU_rows_in_scan, n_restart_sections)`.
Otherwise `restart_in_rows` keeps its previous value. `block_size = 8`
(`DCTSIZE`, set by `jpeg_create_compress` and asserted by
`initial_setup`). Components are given by their `v_samp_factor`s. -/
def set_restart_sections (vSampFactors : List Nat) (imageWidth : Nat)
    (restartInRows : Int) (nRestartSections : Int) : Int :=
  if nRestartSections > 1 then
    let maxV : Nat := vSampFactors.foldl max 1
    let mcuRows : Int := jdiv_round_up (imageWidth : Int) ((maxV : Int) * 8)
    jdiv_round_up mcuRows nRestartSections
  else restartInRows

/-- Modelled from the claim and spec text ("dividing the image into N
independently-decodable sections", `R` = number of iMCU rows
`ceil(image_height / (max_v_samp_factor * 8))`): what
`set_restart_sections` is documented to compute, using the image height. -/
def claimed_set_restart_sections (vSampFactors : List Nat)
    (imageHeight : Nat) (restartInRows : Int) (nRestartSections : Int) : Int :=
  if nRestartSections > 1 then
    let maxV : Nat := vSampFactors.foldl max 1
    let mcuRows : Int := jdiv_round_up (imageHeight : Int) ((maxV : Int) * 8)
    jdiv_round_up mcuRows nRestartSections
  else restartInRows

/-! ## Marker scanning and restart resynchronization (`jdmarker.c`) -/

/-- The marker-reading state visible to `next_marker` and
`jpeg_resync_to_restart`: the remaining input bytes, the pending
`cinfo->unread_marker` code (0 = none) and the
`cinfo->marker->discarded_bytes` counter. -/
structure MarkerState where
  input : List Nat
  unreadMarker : Nat
  discardedBytes : Nat
deriving DecidableEq, Repr

/-- First phase of `next_marker`'s loop body: `INPUT_BYTE(c)` then
`while (c != 0xFF) { discarded_bytes++; INPUT_BYTE(c); }` — i.e. consume
bytes up to and including the first `0xFF`, counting the discarded
non-`0xFF` bytes; `none` when the input is exhausted (the memory data
source cannot refill, so `INPUT_BYTE` suspends). The returned suffix
carries the proof that at least one byte was consumed. -/
def readSkipToFF : (l : List Nat) → Option (Nat × {r : List Nat // r.length < l.length})
  | [] => none
  | c :: rest =>
    if c = 0xFF then some (0, ⟨rest, by simp⟩)
    else
      match readSkipToFF rest with
      | none => none
      | some (d, ⟨r, hr⟩) => some (d + 1, ⟨r, by simp only [List.length_cons]; omega⟩)

/-- Second phase of `next_marker`'s loop body: the
`do { INPUT_BYTE(c); } while (c == 0xFF)` loop that swallows duplicate
`0xFF` pad bytes and returns the first byte that is not `0xFF`;
`none` on input exhaustion. -/
def readAfterFFs : (l : List Nat) → Option (Nat × {r : List Nat // r.length < l.length})
  | [] => none
  | c :: rest =>
    if c = 0xFF then
      match readAfterFFs rest with
      | none => none
      | some (b, ⟨r, hr⟩) => some (b, ⟨r, by simp only [List.length_cons]; omega⟩)
    else some (c, ⟨rest, by simp⟩)

/-- The `for (;;)` loop of `next_marker` (`jdmarker.c`): scan to an
`0xFF`, swallow pad `0xFF`s, read the marker code byte; a code byte of 0
is a stuffed-zero data sequence (`FF/00`), which is discarded (counting
two discarded bytes) before trying again. Returns the marker code, the
total `discarded_bytes`, and the remaining input. -/
def nextMarkerLoop (input : List Nat) (disc : Nat) :
    Option (Nat × Nat × {r : List Nat // r.length < input.length}) :=
  match readSkipToFF input with
  | none => none
  | some (d, r1) =>
    match readAfterFFs r1.1 with
    | none => none
    | some (c, r2) =>
      if c ≠ 0 then some (c, disc + d, ⟨r2.1, by have := r1.2; have := r2.2; omega⟩)
      else
        match nextMarkerLoop r2.1 (disc + d + 2) with
        | none => none
        | some (c3, d3, r3) =>
          some (c3, d3, ⟨r3.1, by have := r1.2; have := r2.2; have := r3.2; omega⟩)
termination_by input.length
decreasing_by have := r1.2; have := r2.2; omega

/-- `next_marker` (`jdmarker.c`): run the scanning loop; if any bytes
were discarded on the way, warn (`JWRN_EXTRANEOUS_DATA`), reset the
counter and return `FALSE` (this trimmed source returns `FALSE` here
instead of continuing); otherwise record the found code in
`unread_marker`. -/
def next_marker (st : MarkerState) : Option MarkerState :=
  match nextMarkerLoop st.input st.discardedBytes with
  | none => none
  | some (c, d, r) =>
    if d ≠ 0 then none
    else some { input := r.1, unreadMarker := c, discardedBytes := 0 }

/-- The decision cascade of `jpeg_resync_to_restart` (`jdmarker.c`):
`marker < M_SOF0 (0xC0)` → action 2 (invalid marker, scan forward);
any other non-restart marker → action 3 (leave unread);
a restart at `desired+1` or `desired+2` (mod 8) → action 3;
a restart at `desired-1` or `desired-2` (mod 8) → action 2;
anything else (the desired restart itself or one further away) →
action 1 (discard).  `(desired-1) & 7` on a C int equals
`(desired+7) % 8` for the `desired ∈ 0..7` values the caller passes. -/
def resyncAction (marker desired : Nat) : Nat :=
  if marker < 0xC0 then 2
  else if marker < 0xD0 ∨ 0xD7 < marker then 3
  else if marker = 0xD0 + (desired + 1) % 8 ∨ marker = 0xD0 + (desired + 2) % 8 then 3
  else if marker = 0xD0 + (desired + 7) % 8 ∨ marker = 0xD0 + (desired + 6) % 8 then 2
  else 1

/-- `jpeg_resync_to_restart` (`jdmarker.c`): repeatedly decide on the
current `unread_marker`; action 1 discards the marker and resumes
(`unread_marker = 0`), action 2 scans forward to the next marker with
`next_marker` and repeats the decision, action 3 returns leaving the
marker unread. `none` = `FALSE` (suspension). -/
def jpeg_resync_to_restart (st : MarkerState) (desired : Nat) : Option MarkerState :=
  let act := resyncAction st.unreadMarker desired
  if act = 1 then some { st with unreadMarker := 0 }
  else if act = 2 then
    match nextMarkerLoop st.input st.discardedBytes with
    | none => none
    | some (c, d, r) =>
      if d ≠ 0 then none
      else jpeg_resync_to_restart { input := r.1, unreadMarker := c, discardedBytes := 0 } desired
  else some st
termination_by st.input.length
decreasing_by exact r.2

/-- Modelled from the claim's words (C2): bytes below `0xC0` scan
forward; restart markers within ±1 or ±2 of the desired number scan
forward; other valid non-restart markers are left unread; restart
markers more than 2 counts away are discarded. -/
def resyncActionClaim (marker desired : Nat) : Nat :=
  if marker < 0xC0 then 2
  else if 0xD0 ≤ marker ∧ marker ≤ 0xD7 then
    if marker = 0xD0 + (desired + 1) % 8 ∨ marker = 0xD0 + (desired + 2) % 8 ∨
       marker = 0xD0 + (desired + 7) % 8 ∨ marker = 0xD0 + (desired + 6) % 8 then 2
    else 1
  else 3

/-! ## Huffman entropy encoder, bit level (`jchuff.c`) -/

/-- The `savable_state` subrecord of the Huffman encoder: bit buffer,
bit count, and the per-component DC predictors. `put_buffer` is a C
`INT32` whose 24 low bits are used; it is modelled as a `Nat` reduced
`% 2 ^ 32` where the C value wraps. -/
structure SavableState where
  putBuffer : Nat
  putBits : Nat
  lastDcVal : Nat → Int

/-- The `working_state` of the sequential encoder: output bytes written
so far (via `next_output_byte`), the destination's `free_in_buffer`
(a C unsigned `JSIZE`, modelled as `Int` so that "never negative" is a
provable statement), and the current savable state. -/
structure WorkingState where
  out : List Nat
  freeInBuffer : Int
  cur : SavableState

/-- The `emit_byte_s` macro (`jchuff.c`): store the byte, advance
`next_output_byte`, decrement `free_in_buffer`, and take the suspend
action (modelled by the returned flag being `false`) exactly when the
count reaches zero. -/
def emit_byte_s (st : WorkingState) (val : Nat) : WorkingState × Bool :=
  let st1 : WorkingState :=
    { st with out := st.out ++ [val % 256], freeInBuffer := st.freeInBuffer - 1 }
  (st1, decide (st1.freeInBuffer ≠ 0))

/-- The `while (put_bits >= 8)` loop of `emit_bits_s`: spill whole bytes
MSB-first from bit 16 of the accumulator, stuffing a literal zero byte
after every `0xFF`, then store the remaining buffer and count into the
savable state. `false` = suspension request propagated from
`emit_byte_s` (the savable state is then *not* updated, as in the C). -/
def emitBitsLoop (st : WorkingState) (putBuffer putBits : Nat) : WorkingState × Bool :=
  if h : 8 ≤ putBits then
    let c := (putBuffer >>> 16) &&& 0xFF
    let r1 := emit_byte_s st c
    if r1.2 = false then (r1.1, false)
    else if c = 0xFF then
      let r2 := emit_byte_s r1.1 0
      if r2.2 = false then (r2.1, false)
      else emitBitsLoop r2.1 ((putBuffer <<< 8) % 2 ^ 32) (putBits - 8)
    else emitBitsLoop r1.1 ((putBuffer <<< 8) % 2 ^ 32) (putBits - 8)
  else
    ({ st with cur := { st.cur with putBuffer := putBuffer, putBits := putBits } }, true)
termination_by putBits
decreasing_by all_goals omega

/-- `emit_bits_s` (`jchuff.c`): mask the incoming code to `size` bits,
left-align it against the 24-bit window (`put_buffer <<= 24 - put_bits`),
merge with the pending buffer, and spill whole bytes. The C asserts
`size != 0`; that precondition appears as a hypothesis of the theorems
that need it. -/
def emit_bits_s (st : WorkingState) (code size : Nat) : WorkingState × Bool :=
  let putBuffer0 := code &&& ((1 <<< size) - 1)
  let putBits := size + st.cur.putBits
  let putBuffer := (putBuffer0 <<< (24 - putBits)) ||| st.cur.putBuffer
  emitBitsLoop st putBuffer putBits

/-- `flush_bits_s` (`jchuff.c`): pad any partial byte with 1-bits
(`emit_bits_s(state, 0x7F, 7)`) and reset the bit buffer to empty. -/
def flush_bits_s (st : WorkingState) : WorkingState × Bool :=
  let r := emit_bits_s st 0x7F 7
  if r.2 = false then (r.1, false)
  else ({ r.1 with cur := { r.1.cur with putBuffer := 0, putBits := 0 } }, true)

/-- `emit_restart_s` (`jchuff.c`): flush the bit buffer, emit
`0xFF (JPEG_RST0 + restart_num)`, and re-initialize the DC predictions of
the `comps_in_scan` components to 0. -/
def emit_restart_s (st : WorkingState) (restartNum compsInScan : Nat) :
    WorkingState × Bool :=
  let r1 := flush_bits_s st
  if r1.2 = false then (r1.1, false) else
  let r2 := emit_byte_s r1.1 0xFF
  if r2.2 = false then (r2.1, false) else
  let r3 := emit_byte_s r2.1 (0xD0 + restartNum)
  if r3.2 = false then (r3.1, false) else
  ({ r3.1 with
      cur := { r3.1.cur with
        lastDcVal := fun ci => if ci < compsInScan then 0 else r3.1.cur.lastDcVal ci } },
   true)

/-- An abstract entropy-encoder operation: one call to `emit_bits_s`,
`emit_restart_s`, or `flush_bits_s`.  Every byte of the entropy-coded
region is produced by a sequence of these calls (`encode_one_block` and
`finish_pass_huff` emit exclusively through them). -/
inductive EncOp where
  | emitBits (code size : Nat)
  | emitRestart (num comps : Nat)
  | flushBits
deriving DecidableEq, Repr

/-- Run a sequence of encoder operations, stopping at the first
suspension (each caller of the emit routines returns `FALSE`
immediately when one fails). -/
def runOps (st : WorkingState) : List EncOp → WorkingState × Bool
  | [] => (st, true)
  | op :: rest =>
    let r : WorkingState × Bool :=
      match op with
      | .emitBits c s => emit_bits_s st c s
      | .emitRestart n k => emit_restart_s st n k
      | .flushBits => flush_bits_s st
    if r.2 then runOps r.1 rest else (r.1, false)

/-- The marker-framing property of a byte list: every `0xFF` byte is
immediately followed by a byte that is either a `0x00` stuff byte or a
restart marker code in `0xD0..0xD7` (in particular the list never ends
in a bare `0xFF`). -/
def ffStuffed (l : List Nat) : Prop :=
  ∀ i, l[i]? = some 0xFF →
    ∃ b, l[i + 1]? = some b ∧ (b = 0 ∨ (0xD0 ≤ b ∧ b ≤ 0xD7))

/-! ## Block encoding (`jchuff.c` `encode_one_block`, `jutils.c`) -/

/-- `jpeg_natural_order` from `jutils.c`: natural-order position of the
i-th zigzag-order element, padded with 16 extra `63` entries. -/
def jpeg_natural_order : List Nat :=
  [0,  1,  8, 16,  9,  2,  3, 10,
   17, 24, 32, 25, 18, 11,  4,  5,
   12, 19, 26, 33, 40, 48, 41, 34,
   27, 20, 13,  6,  7, 14, 21, 28,
   35, 42, 49, 56, 57, 50, 43, 36,
   29, 22, 15, 23, 30, 37, 44, 51,
   58, 59, 52, 45, 38, 31, 39, 46,
   53, 60, 61, 54, 47, 55, 62, 63,
   63, 63, 63, 63, 63, 63, 63, 63,
   63, 63, 63, 63, 63, 63, 63, 63]

/-- Reading `jpeg_natural_order[k]`. -/
def naturalOrder (k : Nat) : Nat := jpeg_natural_order.getD k 0

/-- The DC bit-counting loop of `encode_one_block`:
`nbits = 0; while (temp) { nbits++; temp >>= 1; }` — the number of
significant bits of a nonnegative magnitude. -/
def bitWidth (n : Nat) : Nat :=
  if n = 0 then 0 else bitWidth (n / 2) + 1
termination_by n
decreasing_by omega

/-- The AC bit-counting loop of `encode_one_block`:
`nbits = 1; while ((temp >>= 1)) { nbits++; }`. -/
def acNbits (t : Nat) : Nat := bitWidth (t / 2) + 1

/-- The C cast `(JUINT) temp2` on a two's-complement machine. -/
def juintCast (x : Int) : Nat := (x % (2 ^ 32 : Int)).toNat

/-- A derived encoder Huffman table (`c_derived_tbl`): code and code
length per symbol (length 0 marks an unused symbol). -/
structure CTbl where
  ehufco : Nat → Nat
  ehufsi : Nat → Nat

/-- The ZRL loop of `encode_one_block`:
`while (r > 15) { emit_bits(ehufco[0xF0], ehufsi[0xF0]); r -= 16; }`.
Returns the emitted `(code, size)` pairs and the remaining run. -/
def zrlEmit (actbl : CTbl) (r : Nat) : List (Nat × Nat) × Nat :=
  if r > 15 then
    let z := zrlEmit actbl (r - 16)
    ((actbl.ehufco 0xF0, actbl.ehufsi 0xF0) :: z.1, z.2)
  else ([], r)
termination_by r
decreasing_by omega

/-- The AC loop of `encode_one_block` (`for (k = 1; k <= Se; k++)` with
`Se = lim_Se = 63` in this baseline core), transcribed with an explicit
countdown `cnt = Se - k + 1`.  Emissions are the `(code, size)` pairs
passed to `emit_bits_s`, in order; after the loop an EOB is emitted iff
the trailing run `r` is positive. -/
def acEmitLoop (actbl : CTbl) (block : Nat → Int) : Nat → Nat → Nat → List (Nat × Nat)
  | 0, _, r => if r > 0 then [(actbl.ehufco 0, actbl.ehufsi 0)] else []
  | cnt + 1, k, r =>
    let temp2 := block (naturalOrder k)
    if temp2 = 0 then acEmitLoop actbl block cnt (k + 1) (r + 1)
    else
      let z := zrlEmit actbl r
      let t2 := if temp2 < 0 then temp2 - 1 else temp2
      let nbits := acNbits temp2.natAbs
      let sym := (z.2 <<< 4) + nbits
      z.1 ++ ((actbl.ehufco sym, actbl.ehufsi sym) :: (juintCast t2, nbits) ::
        acEmitLoop actbl block cnt (k + 1) 0)

/-- The sequence of `(code, size)` pairs `encode_one_block` (`jchuff.c`)
passes to `emit_bits_s` for one block: the DC Huffman code for the bit
count of the DC difference, the difference bits themselves when the
count is nonzero (`emit_bits` rejects size-0 calls, so the C skips
them), then the AC loop over zigzag positions 1..63. -/
def encodeOneBlockEmits (block : Nat → Int) (lastDcVal : Int)
    (dctbl actbl : CTbl) : List (Nat × Nat) :=
  let t := block 0 - lastDcVal
  let temp2 := if t < 0 then t - 1 else t
  let nbits := bitWidth t.natAbs
  ((dctbl.ehufco nbits, dctbl.ehufsi nbits) ::
    (if nbits ≠ 0 then [(juintCast temp2, nbits)] else [])) ++
  acEmitLoop actbl block 63 1 0

/-- The bits `emit_bits_s` actually sends for a `(code, size)` pair: the
first thing `emit_bits_s` does is mask the code to its low `size` bits. -/
def emittedPair (p : Nat × Nat) : Nat × Nat := (p.1 % 2 ^ p.2, p.2)

/-- The zigzag-ordered AC coefficients `block[natural_order[k]]` for
`k = start..start+cnt-1`. -/
def valsList (block : Nat → Int) : Nat → Nat → List Int
  | _, 0 => []
  | k, cnt + 1 => block (naturalOrder k) :: valsList block (k + 1) cnt

/-- Modelled from the claim's words (C3), low `n` bits of a
two's-complement value: `x mod 2^n`. -/
def lowBits (x : Int) (n : Nat) : Nat := (x % ((2 : Int) ^ n)).toNat

/-- Modelled from the claim's words (C3), AC part: walk the remaining
zigzag coefficients accumulating a zero run `r`; on each nonzero
coefficient emit `r/16` copies of the ZRL symbol `0xF0`, the Huffman
code for `((r mod 16) << 4) | nbits` (the run that remains after the
ZRL symbols), and `nbits` magnitude bits in two's-complement-magnitude
encoding; a final EOB (symbol 0) iff the block ends on a zero run. -/
def specAC (actbl : CTbl) : List Int → Nat → List (Nat × Nat)
  | [], r => if 0 < r then [(actbl.ehufco 0, actbl.ehufsi 0)] else []
  | v :: rest, r =>
    if v = 0 then specAC actbl rest (r + 1)
    else
      let nbits := bitWidth v.natAbs
      let sym := ((r % 16) <<< 4) + nbits
      List.replicate (r / 16) (actbl.ehufco 0xF0, actbl.ehufsi 0xF0) ++
        ((actbl.ehufco sym, actbl.ehufsi sym) ::
         (lowBits (if v < 0 then v - 1 else v) nbits, nbits) ::
         specAC actbl rest 0)

/-- Modelled from the claim's words (C3): the whole block emits the DC
Huffman code for `nbits` of `|block[0] - last_dc|`, then `nbits` bits of
the difference (`diff - 1` when negative, `diff` otherwise — zero bits
when `nbits = 0`), then the AC description over coefficients 1..63 in
natural zigzag order. -/
def specBlockEmits (block : Nat → Int) (lastDcVal : Int)
    (dctbl actbl : CTbl) : List (Nat × Nat) :=
  let diff := block 0 - lastDcVal
  let nbits := bitWidth diff.natAbs
  ((dctbl.ehufco nbits, dctbl.ehufsi nbits) ::
    (if nbits = 0 then []
     else [(lowBits (if diff < 0 then diff - 1 else diff) nbits, nbits)])) ++
  specAC actbl (valsList block 1 63) 0

/-! ## MCU encoding (`jchuff.c` `encode_mcu_huff`) -/

/-- Run a list of `(code, size)` pairs through `emit_bits_s`, stopping
at the first suspension — exactly how `encode_one_block` drives its
emissions. -/
def runEmitPairs (st : WorkingState) : List (Nat × Nat) → WorkingState × Bool
  | [] => (st, true)
  | p :: rest =>
    let r := emit_bits_s st p.1 p.2
    if r.2 then runEmitPairs r.1 rest else (r.1, false)

/-- `encode_one_block` at the byte level: emit the block's `(code,size)`
sequence through the bit buffer, returning `FALSE` at the first
suspension (the C interleaves computing and emitting, but later symbols
do not depend on emission success, so the state and output coincide). -/
def encode_one_block (st : WorkingState) (block : Nat → Int) (lastDcVal : Int)
    (dctbl actbl : CTbl) : WorkingState × Bool :=
  runEmitPairs st (encodeOneBlockEmits block lastDcVal dctbl actbl)

/-- The destination-manager fields `encode_mcu_huff` loads from and
commits to: `next_output_byte` (the bytes written) and
`free_in_buffer`. -/
structure DestMgr where
  out : List Nat
  freeInBuffer : Int

/-- The entropy-encoder fields that persist across MCUs: the savable
state and the restart bookkeeping. -/
structure EntropySaved where
  saved : SavableState
  restartsToGo : Nat
  nextRestartNum : Nat

/-- One block of an MCU: the component index `ci = MCU_membership[blkn]`
and the block plus its derived tables
(`dc_derived_tbls[compptr->dc_tbl_no]` etc.). -/
structure McuBlock where
  ci : Nat
  block : Nat → Int
  dctbl : CTbl
  actbl : CTbl

/-- The block loop of `encode_mcu_huff`: encode each block against the
current `last_dc_val[ci]`, then update `last_dc_val[ci] = block[0]`;
stop and report `FALSE` at the first suspension. -/
def encodeBlocksLoop (st : WorkingState) : List McuBlock → WorkingState × Bool
  | [] => (st, true)
  | b :: rest =>
    let r := encode_one_block st b.block (st.cur.lastDcVal b.ci) b.dctbl b.actbl
    if r.2 then
      encodeBlocksLoop
        { r.1 with cur := { r.1.cur with
            lastDcVal := fun i => if i = b.ci then b.block 0 else r.1.cur.lastDcVal i } }
        rest
    else (r.1, false)

/-- `encode_mcu_huff` (`jchuff.c`): load the working state from the
destination and the saved entropy state, emit a restart marker if the
interval expired, encode the MCU's blocks, and only on success commit
the working state back to `dest` and `entropy->saved` and update the
restart counters (`next_restart_num` advances mod 8). On suspension
(`FALSE`) the destination and entropy state are returned exactly as
they were. -/
def encode_mcu_huff (restartInterval compsInScan : Nat) (dest : DestMgr)
    (ent : EntropySaved) (mcu : List McuBlock) : Bool × DestMgr × EntropySaved :=
  let st0 : WorkingState := ⟨dest.out, dest.freeInBuffer, ent.saved⟩
  let r0 : WorkingState × Bool :=
    if restartInterval ≠ 0 ∧ ent.restartsToGo = 0 then
      emit_restart_s st0 ent.nextRestartNum compsInScan
    else (st0, true)
  if r0.2 = false then (false, dest, ent)
  else
    let r1 := encodeBlocksLoop r0.1 mcu
    if r1.2 = false then (false, dest, ent)
    else
      let entUpd : EntropySaved :=
        if restartInterval ≠ 0 then
          if ent.restartsToGo = 0 then
            { saved := r1.1.cur, restartsToGo := restartInterval - 1,
              nextRestartNum := (ent.nextRestartNum + 1) % 8 }
          else
            { saved := r1.1.cur, restartsToGo := ent.restartsToGo - 1,
              nextRestartNum := ent.nextRestartNum }
        else
          { saved := r1.1.cur, restartsToGo := ent.restartsToGo,
            nextRestartNum := ent.nextRestartNum }
      (true, ⟨r1.1.out, r1.1.freeInBuffer⟩, entUpd)

/-! ## Decoder bit refill (`jdhuff.c` `jpeg_fill_bit_buffer`) -/

/-- The bit-reading state of the entropy decoder together with the
decoder fields `jpeg_fill_bit_buffer` touches: the remaining input
bytes (the memory source cannot refill, so exhaustion suspends), the
32-bit `get_buffer` (modelled `% 2 ^ 32`), `bits_left`,
`cinfo->unread_marker` (0 = none), the `insufficient_data` flag, and a
count of `JWRN_HIT_MARKER` warnings recorded. -/
structure FillState where
  input : List Nat
  getBuffer : Nat
  bitsLeft : Nat
  unreadMarker : Nat
  insufficientData : Bool
  warnings : Nat
deriving Repr

/-- `MIN_GET_BITS = BIT_BUF_SIZE - 7 = 25` (`jdhuff.c`). -/
def MIN_GET_BITS : Nat := 25

/-- The inner `do { ... } while (c == 0xFF)` of `jpeg_fill_bit_buffer`:
after an `0xFF` was read, keep reading bytes while they are `0xFF`
(padding on a terminating marker) and return the first byte that is
not; `none` when the bytes run out (`fill_input_buffer` of the memory
source returns `FALSE`). -/
def fillSkipFFs : (l : List Nat) → Option (Nat × {r : List Nat // r.length < l.length})
  | [] => none
  | c :: rest =>
    if c = 0xFF then
      match fillSkipFFs rest with
      | none => none
      | some (b, ⟨r, hr⟩) => some (b, ⟨r, by simp only [List.length_cons]; omega⟩)
    else some (c, ⟨rest, by simp⟩)

/-- The `no_more_bytes` tail of `jpeg_fill_bit_buffer`: once a marker
terminates the data segment, a request for more bits than remain warns
(`JWRN_HIT_MARKER`) only if `insufficient_data` was not yet set, sets
the flag, and pads the buffer with zero bits up to `MIN_GET_BITS`
(`get_buffer <<= MIN_GET_BITS - bits_left; bits_left = MIN_GET_BITS`). -/
def noMoreBytes (nbits : Nat) (st : FillState) : FillState :=
  if st.bitsLeft < nbits then
    let st1 :=
      if st.insufficientData then st
      else { st with warnings := st.warnings + 1, insufficientData := true }
    { st1 with getBuffer := (st1.getBuffer <<< (MIN_GET_BITS - st1.bitsLeft)) % 2 ^ 32,
               bitsLeft := MIN_GET_BITS }
  else st

/-- The `while (bits_left < MIN_GET_BITS)` loop of
`jpeg_fill_bit_buffer`: read a byte (suspend if none — the Abcouwer
memory source does not refill); on `0xFF`, swallow padding `0xFF`s and
either treat `FF/00` as a literal `0xFF` data byte or save the marker
code into `unread_marker` and fall through to the padding check. -/
def fillLoop (nbits : Nat) (st : FillState) : Option FillState :=
  if st.bitsLeft < MIN_GET_BITS then
    match _h : st.input with
    | [] => none
    | c :: rest =>
      if c = 0xFF then
        match fillSkipFFs rest with
        | none => none
        | some (c2, r2) =>
          if c2 = 0 then
            fillLoop nbits
              { st with
                input := r2.1
                getBuffer := ((st.getBuffer <<< 8) ||| 0xFF) % 2 ^ 32
                bitsLeft := st.bitsLeft + 8 }
          else some (noMoreBytes nbits { st with input := r2.1, unreadMarker := c2 })
      else
        fillLoop nbits
          { st with
            input := rest
            getBuffer := ((st.getBuffer <<< 8) ||| c) % 2 ^ 32
            bitsLeft := st.bitsLeft + 8 }
  else some st
termination_by st.input.length
decreasing_by
  · simp only [_h, List.length_cons]
    have := r2.2
    omega
  · simp only [_h, List.length_cons]
    omega

/-- `jpeg_fill_bit_buffer` (`jdhuff.c`): refill only while no marker has
been seen (`cannot advance past a marker`); with a pending
`unread_marker` go straight to the `no_more_bytes` padding check. -/
def jpeg_fill_bit_buffer (st : FillState) (nbits : Nat) : Option FillState :=
  if st.unreadMarker = 0 then fillLoop nbits st
  else some (noMoreBytes nbits st)

/-! ## Huffman decoding (`jdhuff.c` `jpeg_make_d_derived_tbl`,
`jpeg_huff_decode`) -/

/-- The `bmask` table of `jdhuff.c`: `bmask[n]` masks the `n` rightmost
bits (defined for `n ≤ 15`). -/
def bmask (n : Nat) : Nat :=
  [0, 0x0001, 0x0003, 0x0007, 0x000F, 0x001F, 0x003F, 0x007F, 0x00FF,
   0x01FF, 0x03FF, 0x07FF, 0x0FFF, 0x1FFF, 0x3FFF, 0x7FFF].getD n 0

/-- `GET_BITS(n)`: `bits_left -= n; (get_buffer >> bits_left) & bmask[n]`. -/
def getBits (st : FillState) (n : Nat) : Nat × FillState :=
  let b := st.bitsLeft - n
  ((st.getBuffer >>> b) &&& bmask n, { st with bitsLeft := b })

/-- `CHECK_BIT_BUFFER(state, n, action)`: refill when fewer than `n`
bits remain; `none` = the fill suspended (the caller's action). -/
def checkBitBuffer (st : FillState) (n : Nat) : Option FillState :=
  if st.bitsLeft < n then jpeg_fill_bit_buffer st n else some st

/-- Result of the code-lengthening loop of `jpeg_huff_decode`:
suspension, fuel exhaustion (never reached from a derived table, as
proved below), or completion with the final code and length. -/
inductive HuffLoopRes where
  | suspend : HuffLoopRes
  | fuelOut : HuffLoopRes
  | done (st : FillState) (code l : Nat) : HuffLoopRes
deriving Repr

/-- The `while (code > htbl->maxcode[l])` loop of `jpeg_huff_decode`
(`jdhuff.c`): lengthen the code one input bit at a time
(`code <<= 1; code |= GET_BITS(1); l++`). The loop has no structural
bound in the C — termination rests on the `maxcode[17]` sentinel — so it
is embedded with explicit fuel. -/
def huffDecodeLoop (maxcode : Nat → Int) (fuel : Nat) (st : FillState)
    (code l : Nat) : HuffLoopRes :=
  if (code : Int) > maxcode l then
    match fuel with
    | 0 => .fuelOut
    | fuel' + 1 =>
      match checkBitBuffer st 1 with
      | none => .suspend
      | some st1 =>
        let g := getBits st1 1
        huffDecodeLoop maxcode fuel' g.2 ((code <<< 1) ||| g.1) (l + 1)
  else .done st code l

/-- Result of `jpeg_huff_decode`: `-1` (suspension), fuel exhaustion
(artifact of the fuel embedding), or a symbol value together with
whether the bad-Huffman-code warning was recorded. -/
inductive HuffRes where
  | suspend : HuffRes
  | fuelOut : HuffRes
  | ok (st : FillState) (badCode : Bool) (val : Nat) : HuffRes
deriving Repr

/-- The derived decoder table fields used by `jpeg_huff_decode`. -/
structure DTbl where
  maxcode : Nat → Int
  valoffset : Nat → Int
  huffval : Nat → Nat

/-- `jpeg_huff_decode` (`jdhuff.c`): fetch `min_bits` bits, run the
code-lengthening loop; with garbage input the loop may reach the
sentinel length `l = 17`, in which case warn (`JWRN_HUFF_BAD_CODE`) and
return 0 as the safest result, else look the symbol up through
`valoffset`. -/
def jpeg_huff_decode (htbl : DTbl) (st : FillState) (minBits fuel : Nat) : HuffRes :=
  match checkBitBuffer st minBits with
  | none => .suspend
  | some st1 =>
    let g := getBits st1 minBits
    match huffDecodeLoop htbl.maxcode fuel g.2 g.1 minBits with
    | .suspend => .suspend
    | .fuelOut => .fuelOut
    | .done st2 code l =>
      if l > 16 then .ok st2 true 0
      else .ok st2 false (htbl.huffval ((code : Int) + htbl.valoffset l).toNat)

/-- Figure C.1 of `jpeg_make_d_derived_tbl`: the `huffsize` list — for
`l = 1..16`, `bits[l]` entries of value `l`, in order. -/
def huffSizesUpTo (bits : Nat → Nat) : Nat → List Nat
  | 0 => []
  | l + 1 => huffSizesUpTo bits l ++ List.replicate (bits (l + 1)) (l + 1)

/-- Figure C.2 of `jpeg_make_d_derived_tbl`: generate the canonical
codes — assign consecutive codes while the current size matches `si`,
shifting left when moving to the next size. The source's loop relies on
`huffsize` being nondecreasing; the final `else` arm (a size smaller
than `si`) is unreachable for lists built by `huffSizesUpTo` and makes
the function total. -/
def genCodes : List Nat → Nat → Nat → List Nat
  | [], _, _ => []
  | s :: rest, code, si =>
    if s = si then code :: genCodes rest (code + 1) si
    else if si < s then genCodes (s :: rest) (code <<< 1) (si + 1)
    else []
termination_by l _ si => (l.length, l.headD 0 - si)
decreasing_by
  · apply Prod.Lex.left
    simp
  · apply Prod.Lex.right
    simp only [List.headD_cons]
    omega

/-- The `huffcode` array: codes in symbol order. -/
def huffcodeList (bits : Nat → Nat) : List Nat :=
  genCodes (huffSizesUpTo bits 16) 0 ((huffSizesUpTo bits 16).headD 0)

/-- `Σ_{j=1..l} bits[j]` — the `p` counter of the Figure F.15 loop after
processing length `l`. -/
def bitsSum (bits : Nat → Nat) : Nat → Nat
  | 0 => 0
  | l + 1 => bitsSum bits l + bits (l + 1)

/-- The `maxcode` array built by the Figure F.15 loop of
`jpeg_make_d_derived_tbl`: `maxcode[l] = huffcode[p-1]` after
`p += bits[l]` when `bits[l] > 0`, `-1` otherwise, and the sentinel
`maxcode[17] = 0xFFFFF` "ensures jpeg_huff_decode terminates". -/
def jpeg_make_d_maxcode (bits : Nat → Nat) (l : Nat) : Int :=
  if l = 17 then 0xFFFFF
  else if 1 ≤ l ∧ l ≤ 16 then
    if bits l ≠ 0 then ((huffcodeList bits).getD (bitsSum bits l - 1) 0 : Int)
    else -1
  else 0

/-- The `valoffset` array of the same loop:
`valoffset[l] = p - huffcode[p]` with `p` the index of the first symbol
of code length `l`. -/
def jpeg_make_d_valoffset (bits : Nat → Nat) (l : Nat) : Int :=
  if 1 ≤ l ∧ l ≤ 16 ∧ bits l ≠ 0 then
    (bitsSum bits (l - 1) : Int) -
      ((huffcodeList bits).getD (bitsSum bits (l - 1)) 0 : Int)
  else 0

/-- The derived decoder table `jpeg_make_d_derived_tbl` builds from a
DHT payload (`bits`, `huffval`). -/
def jpeg_make_d_derived_tbl (bits : Nat → Nat) (huffval : Nat → Nat) : DTbl :=
  ⟨jpeg_make_d_maxcode bits, jpeg_make_d_valoffset bits, huffval⟩

end Jsc

namespace Jsc

/-! ## Framing lemmas for the entropy-coded byte stream -/

theorem ffStuffed_nil : ffStuffed [] := by
  intro i h
  simp at h

theorem ffStuffed_append {a b : List Nat} (ha : ffStuffed a) (hb : ffStuffed b) :
    ffStuffed (a ++ b) := by
  intro i hFF
  by_cases hi : i < a.length
  · rw [List.getElem?_append, if_pos hi] at hFF
    obtain ⟨v, hv, hgood⟩ := ha i hFF
    have hi1 : i + 1 < a.length := by
      rcases List.getElem?_eq_some.mp hv with ⟨h, _⟩
      exact h
    exact ⟨v, by rw [List.getElem?_append, if_pos hi1]; exact hv, hgood⟩
  · push_neg at hi
    rw [List.getElem?_append, if_neg (by omega)] at hFF
    obtain ⟨v, hv, hgood⟩ := hb _ hFF
    refine ⟨v, ?_, hgood⟩
    rw [List.getElem?_append, if_neg (by omega)]
    have he : i + 1 - a.length = (i - a.length) + 1 := by omega
    rw [he]
    exact hv

theorem ffStuffed_single {b : Nat} (hb : b ≠ 0xFF) : ffStuffed [b] := by
  intro i h
  match i with
  | 0 => simp at h; omega
  | j + 1 => simp at h

theorem ffStuffed_ffPair {b : Nat} (hb : b = 0 ∨ (0xD0 ≤ b ∧ b ≤ 0xD7)) :
    ffStuffed [0xFF, b] := by
  intro i h
  match i with
  | 0 => exact ⟨b, by simp, hb⟩
  | 1 => simp at h; omega
  | j + 2 => simp at h

theorem emitBitsLoop_ffStuffed (bits : Nat) :
    ∀ pb : Nat, ∀ st : WorkingState, ffStuffed st.out →
      (emitBitsLoop st pb bits).2 = true →
      ffStuffed (emitBitsLoop st pb bits).1.out := by
  induction bits using Nat.strong_induction_on with
  | _ bits ih =>
    intro pb st hst hok
    rw [emitBitsLoop] at hok ⊢
    by_cases h : 8 ≤ bits
    · simp only [dif_pos h] at hok ⊢
      have hcle : (pb >>> 16) &&& 0xFF ≤ 0xFF := Nat.and_le_right
      by_cases h1 : (emit_byte_s st ((pb >>> 16) &&& 0xFF)).2 = false
      · simp [h1] at hok
      · simp only [h1, if_false] at hok ⊢
        by_cases hc : (pb >>> 16) &&& 0xFF = 0xFF
        · simp only [hc, if_true, if_pos rfl] at hok ⊢
          by_cases h2 :
              (emit_byte_s (emit_byte_s st 0xFF).1 0).2 = false
          · simp [h2] at hok
          · simp only [h2, if_false] at hok ⊢
            refine ih (bits - 8) (by omega) _ _ ?_ hok
            have hout : (emit_byte_s (emit_byte_s st 0xFF).1 0).1.out =
                st.out ++ [0xFF, 0] := by
              simp [emit_byte_s]
            rw [hout]
            exact ffStuffed_append hst (ffStuffed_ffPair (Or.inl rfl))
        · simp only [hc, if_false] at hok ⊢
          refine ih (bits - 8) (by omega) _ _ ?_ hok
          have hlt : (pb >>> 16) &&& 0xFF < 256 := by omega
          have hout : (emit_byte_s st ((pb >>> 16) &&& 0xFF)).1.out =
              st.out ++ [(pb >>> 16) &&& 0xFF] := by
            simp [emit_byte_s, Nat.mod_eq_of_lt hlt]
          rw [hout]
          exact ffStuffed_append hst (ffStuffed_single hc)
    · simp only [dif_neg h]
      exact hst

theorem emit_bits_s_ffStuffed {st : WorkingState} {c s : Nat}
    (hst : ffStuffed st.out) (hok : (emit_bits_s st c s).2 = true) :
    ffStuffed (emit_bits_s st c s).1.out := by
  unfold emit_bits_s at hok ⊢
  exact emitBitsLoop_ffStuffed _ _ _ hst hok

theorem flush_bits_s_ffStuffed {st : WorkingState}
    (hst : ffStuffed st.out) (hok : (flush_bits_s st).2 = true) :
    ffStuffed (flush_bits_s st).1.out := by
  unfold flush_bits_s at hok ⊢
  by_cases h : (emit_bits_s st 0x7F 7).2 = false
  · simp [h] at hok
  · simp only [h, if_false] at hok ⊢
    exact emit_bits_s_ffStuffed hst (by simpa using h)

theorem emit_restart_s_ffStuffed {st : WorkingState} {num comps : Nat}
    (hnum : num ≤ 7) (hst : ffStuffed st.out)
    (hok : (emit_restart_s st num comps).2 = true) :
    ffStuffed (emit_restart_s st num comps).1.out := by
  unfold emit_restart_s at hok ⊢
  by_cases h1 : (flush_bits_s st).2 = false
  · simp [h1] at hok
  · simp only [h1, if_false] at hok ⊢
    have hf := flush_bits_s_ffStuffed hst (by simpa using h1)
    by_cases h2 : (emit_byte_s (flush_bits_s st).1 0xFF).2 = false
    · simp [h2] at hok
    · simp only [h2, if_false] at hok ⊢
      by_cases h3 :
          (emit_byte_s (emit_byte_s (flush_bits_s st).1 0xFF).1 (0xD0 + num)).2 = false
      · simp [h3] at hok
      · simp only [h3, if_false]
        have hlt : 0xD0 + num < 256 := by omega
        have hout :
            (emit_byte_s (emit_byte_s (flush_bits_s st).1 0xFF).1 (0xD0 + num)).1.out =
              (flush_bits_s st).1.out ++ [0xFF, 0xD0 + num] := by
          simp [emit_byte_s, Nat.mod_eq_of_lt hlt]
        show ffStuffed
          (emit_byte_s (emit_byte_s (flush_bits_s st).1 0xFF).1 (0xD0 + num)).1.out
        rw [hout]
        exact ffStuffed_append hf (ffStuffed_ffPair (Or.inr ⟨by omega, by omega⟩))

/-- C1: marker framing of the encoder bitstream.  For any sequence of
`emit_bits_s` / `emit_restart_s` / `flush_bits_s` calls whose restart
numbers are in `0..7` (as `encode_mcu_huff` guarantees via
`next_restart_num &= 7`), if the sequence completes without suspension
starting from a state whose output already satisfies the framing
property (e.g. the empty output), then the resulting entropy-coded
output satisfies it too: every `0xFF` byte is immediately followed by a
`0x00` stuff byte or a restart marker code in `0xD0..0xD7`. -/
theorem C1_marker_framing :
    ∀ ops : List EncOp, ∀ st : WorkingState,
      (∀ n k, EncOp.emitRestart n k ∈ ops → n ≤ 7) →
      ffStuffed st.out →
      (runOps st ops).2 = true →
      ffStuffed (runOps st ops).1.out := by
  intro ops
  induction ops with
  | nil => intro st _ hst _; exact hst
  | cons op rest ih =>
    intro st hres hst hok
    simp only [runOps] at hok ⊢
    by_cases hr :
        (match op with
          | .emitBits c s => emit_bits_s st c s
          | .emitRestart n k => emit_restart_s st n k
          | .flushBits => flush_bits_s st).2 = true
    · simp only [hr, if_true] at hok ⊢
      refine ih _ (fun n k hm => hres n k (List.mem_cons_of_mem _ hm)) ?_ hok
      match op with
      | .emitBits c s => exact emit_bits_s_ffStuffed hst hr
      | .emitRestart n k =>
        exact emit_restart_s_ffStuffed (hres n k (List.mem_cons_self _ _)) hst hr
      | .flushBits => exact flush_bits_s_ffStuffed hst hr
    · simp only [Bool.not_eq_true] at hr
      simp [hr] at hok

/-- C1 witness: a concrete run — emit the eight bits `0xFF` (which
forces a stuff byte) and then restart marker 2 — produces the framed
output `FF 00 FF D2` plus flush padding. -/
theorem C1_marker_framing_witness :
    ((∀ n k, EncOp.emitRestart n k ∈
        [EncOp.emitBits 0xFF 8, EncOp.emitRestart 2 1] → n ≤ 7) ∧
     ffStuffed (WorkingState.mk [] 100 ⟨0, 0, fun _ => 0⟩).out ∧
     (runOps (WorkingState.mk [] 100 ⟨0, 0, fun _ => 0⟩)
        [EncOp.emitBits 0xFF 8, EncOp.emitRestart 2 1]).2 = true) ∧
    ffStuffed (runOps (WorkingState.mk [] 100 ⟨0, 0, fun _ => 0⟩)
        [EncOp.emitBits 0xFF 8, EncOp.emitRestart 2 1]).1.out := by
  have h1 : ∀ n k, EncOp.emitRestart n k ∈
      [EncOp.emitBits 0xFF 8, EncOp.emitRestart 2 1] → n ≤ 7 := by
    intro n k hm
    rcases List.mem_cons.mp hm with h | h
    · cases h
    · rcases List.mem_cons.mp h with h | h
      · cases h; omega
      · simp at h
  have h2 : ffStuffed (WorkingState.mk [] 100 ⟨0, 0, fun _ => 0⟩).out := ffStuffed_nil
  have h3 : (runOps (WorkingState.mk [] 100 ⟨0, 0, fun _ => 0⟩)
      [EncOp.emitBits 0xFF 8, EncOp.emitRestart 2 1]).2 = true := by
    simp [runOps, emit_bits_s, emitBitsLoop, emit_byte_s, emit_restart_s, flush_bits_s]
  exact ⟨⟨h1, h2, h3⟩,
    C1_marker_framing [EncOp.emitBits 0xFF 8, EncOp.emitRestart 2 1] _ h1 h2 h3⟩

/-! ## Emission-level correctness of `encode_one_block` (C3) -/

theorem zrlEmit_eq (actbl : CTbl) (r : Nat) :
    zrlEmit actbl r =
      (List.replicate (r / 16) (actbl.ehufco 0xF0, actbl.ehufsi 0xF0), r % 16) := by
  induction r using Nat.strong_induction_on with
  | _ r ih =>
    rw [zrlEmit]
    by_cases h : r > 15
    · rw [if_pos h, ih (r - 16) (by omega)]
      have h1 : r / 16 = (r - 16) / 16 + 1 := by omega
      have h2 : r % 16 = (r - 16) % 16 := by omega
      rw [h1, h2, List.replicate_succ]
    · rw [if_neg h]
      have h1 : r / 16 = 0 := by omega
      have h2 : r % 16 = r := by omega
      rw [h1, h2, List.replicate_zero]

theorem bitWidth_le {m k : Nat} (h : m < 2 ^ k) : bitWidth m ≤ k := by
  induction m using Nat.strong_induction_on generalizing k with
  | _ m ih =>
    rw [bitWidth]
    by_cases hm : m = 0
    · simp [hm]
    · rw [if_neg hm]
      have hk : k ≠ 0 := by
        intro hk0
        rw [hk0] at h
        omega
      have hm2 : m / 2 < 2 ^ (k - 1) := by
        have : 2 ^ k = 2 ^ (k - 1) * 2 := by
          rw [← pow_succ]
          congr 1
          omega
        omega
      have := ih (m / 2) (by omega) hm2
      omega

theorem acNbits_eq_bitWidth {t : Nat} (ht : 1 ≤ t) : acNbits t = bitWidth t := by
  unfold acNbits
  conv_rhs => rw [bitWidth]
  rw [if_neg (by omega)]

theorem juintCast_mod_pow {x : Int} {n : Nat} (hn : n ≤ 32) :
    juintCast x % 2 ^ n = lowBits x n := by
  unfold juintCast lowBits
  have hd : ((2:Int) ^ n) ∣ ((2:Int) ^ 32) := pow_dvd_pow 2 hn
  have h1 : x % (2 ^ 32 : Int) % ((2:Int) ^ n) = x % ((2:Int) ^ n) :=
    Int.emod_emod_of_dvd x hd
  rw [← h1]
  have hy : 0 ≤ x % (2 ^ 32 : Int) := Int.emod_nonneg x (by positivity)
  conv_rhs => rw [← Int.toNat_of_nonneg hy]
  rw [show ((2:Int) ^ n) = ((2 ^ n : Nat) : Int) by push_cast; ring]
  rw [show ((((x % (2 ^ 32 : Int)).toNat : Nat) : Int) % ((2 ^ n : Nat) : Int))
        = (((x % (2 ^ 32 : Int)).toNat % 2 ^ n : Nat) : Int) by push_cast; ring]
  exact (Int.toNat_natCast _).symm

theorem lowBits_lt (x : Int) (n : Nat) : lowBits x n < 2 ^ n := by
  unfold lowBits
  have h2 : (0:Int) < (2:Int) ^ n := by positivity
  have := Int.emod_nonneg x (ne_of_gt h2)
  have := Int.emod_lt_of_pos x h2
  have hc : ((2:Int) ^ n) = ((2 ^ n : Nat) : Int) := by push_cast; ring
  omega

theorem emittedPair_value_eq {x : Int} {n : Nat} (hn : n ≤ 32) :
    emittedPair (juintCast x, n) = emittedPair (lowBits x n, n) := by
  unfold emittedPair
  simp only []
  rw [juintCast_mod_pow hn, Nat.mod_eq_of_lt (lowBits_lt x n)]

theorem acEmitLoop_eq_specAC (actbl : CTbl) (block : Nat → Int) :
    ∀ cnt k r : Nat,
      (∀ i, i < cnt → (block (naturalOrder (k + i))).natAbs ≤ 1023) →
      (acEmitLoop actbl block cnt k r).map emittedPair =
        (specAC actbl (valsList block k cnt) r).map emittedPair := by
  intro cnt
  induction cnt with
  | zero => intro k r _; rfl
  | succ cnt ih =>
    intro k r hbound
    rw [acEmitLoop, valsList, specAC]
    by_cases hv : block (naturalOrder k) = 0
    · rw [if_pos hv, if_pos hv]
      refine ih (k + 1) (r + 1) ?_
      intro i hi
      have he : k + 1 + i = k + (i + 1) := by omega
      rw [he]
      exact hbound (i + 1) (by omega)
    · rw [if_neg hv, if_neg hv, zrlEmit_eq]
      simp only []
      have hnb : acNbits (block (naturalOrder k)).natAbs =
          bitWidth (block (naturalOrder k)).natAbs :=
        acNbits_eq_bitWidth (by
          have := Int.natAbs_pos.mpr hv
          omega)
      have hble : bitWidth (block (naturalOrder k)).natAbs ≤ 32 := by
        have hb := hbound 0 (by omega)
        simp only [Nat.add_zero] at hb
        have h10 : (block (naturalOrder k)).natAbs < 2 ^ 10 := by omega
        exact le_trans (bitWidth_le h10) (by omega)
      rw [List.map_append, List.map_append, List.map_cons, List.map_cons,
        List.map_cons, List.map_cons, hnb]
      congr 1
      congr 1
      rw [emittedPair_value_eq hble]
      congr 1
      refine ih (k + 1) 0 ?_
      intro i hi
      have he : k + 1 + i = k + (i + 1) := by omega
      rw [he]
      exact hbound (i + 1) (by omega)

/-- C3: `encode_one_block` emits exactly what the claim describes — the
DC Huffman code for the bit count of `block[0] - last_dc`, then that
many bits of the two's-complement magnitude (`diff - 1` when negative),
then, walking zigzag positions 1..63 with a zero-run accumulator,
`r/16` ZRL symbols, the Huffman code for `(r<<4)|nbits` with the
reduced run, `nbits` magnitude bits, and a final EOB iff the block ends
on a zero run. Emissions are compared as the bits `emit_bits_s` sends
(its low-`size`-bits mask applied). The hypotheses are the coefficient
ranges enforced by the `MAX_COEF_BITS` assertions. -/
theorem C3_encode_one_block_emissions :
    ∀ (block : Nat → Int) (lastDc : Int) (dctbl actbl : CTbl),
      (block 0 - lastDc).natAbs ≤ 2047 →
      (∀ k, k < 64 → 1 ≤ k → (block (naturalOrder k)).natAbs ≤ 1023) →
      (encodeOneBlockEmits block lastDc dctbl actbl).map emittedPair =
        (specBlockEmits block lastDc dctbl actbl).map emittedPair := by
  intro block lastDc dctbl actbl hdc hac
  unfold encodeOneBlockEmits specBlockEmits
  simp only []
  rw [List.map_append, List.map_append]
  congr 1
  · rw [List.map_cons, List.map_cons]
    congr 1
    have hble : bitWidth (block 0 - lastDc).natAbs ≤ 32 :=
      le_trans (bitWidth_le (show (block 0 - lastDc).natAbs < 2 ^ 11 by omega))
        (by omega)
    by_cases hz : bitWidth (block 0 - lastDc).natAbs = 0
    · rw [if_neg (by simp [hz]), if_pos hz]
    · rw [if_pos hz, if_neg hz, List.map_cons, List.map_cons]
      congr 1
      exact emittedPair_value_eq hble
  · refine acEmitLoop_eq_specAC actbl block 63 1 0 ?_
    intro i hi
    exact hac (1 + i) (by omega) (by omega)

/-- C3 witness: a concrete block (DC 5 with predictor 2, one AC
coefficient −3 at zigzag position 2, rest zero) instantiating the
emission equality. -/
theorem C3_encode_one_block_witness :
    ((fun k => if k = 0 then (5 : Int) else if k = 8 then -3 else 0) 0 -
        (2 : Int)).natAbs ≤ 2047 ∧
    (∀ k, k < 64 → 1 ≤ k →
      ((fun k => if k = 0 then (5 : Int) else if k = 8 then -3 else 0)
        (naturalOrder k)).natAbs ≤ 1023) ∧
    (encodeOneBlockEmits
        (fun k => if k = 0 then (5 : Int) else if k = 8 then -3 else 0) 2
        ⟨fun s => s, fun _ => 4⟩ ⟨fun s => s, fun _ => 6⟩).map emittedPair =
      (specBlockEmits
        (fun k => if k = 0 then (5 : Int) else if k = 8 then -3 else 0) 2
        ⟨fun s => s, fun _ => 4⟩ ⟨fun s => s, fun _ => 6⟩).map emittedPair := by
  have h1 : ((fun k => if k = 0 then (5 : Int) else if k = 8 then -3 else 0) 0 -
      (2 : Int)).natAbs ≤ 2047 := by norm_num
  have h2 : ∀ k, k < 64 → 1 ≤ k →
      ((fun k => if k = 0 then (5 : Int) else if k = 8 then -3 else 0)
        (naturalOrder k)).natAbs ≤ 1023 := by
    intro k hk _
    simp only []
    split_ifs <;> norm_num
  exact ⟨h1, h2, C3_encode_one_block_emissions _ 2 _ _ h1 h2⟩

/-! ## Bit-refill properties (C5) -/

theorem noMoreBytes_unreadMarker (n : Nat) (st : FillState) :
    (noMoreBytes n st).unreadMarker = st.unreadMarker := by
  unfold noMoreBytes
  split_ifs <;> rfl

theorem noMoreBytes_input (n : Nat) (st : FillState) :
    (noMoreBytes n st).input = st.input := by
  unfold noMoreBytes
  split_ifs <;> rfl

theorem fillLoop_bits_ge (n : Nat) :
    ∀ m : Nat, ∀ st st' : FillState, st.input.length ≤ m →
      fillLoop n st = some st' → st'.unreadMarker = 0 →
      MIN_GET_BITS ≤ st'.bitsLeft := by
  intro m
  induction m with
  | zero =>
    intro st st' hlen hsome hmark
    rw [fillLoop] at hsome
    by_cases hb : st.bitsLeft < MIN_GET_BITS
    · rw [if_pos hb] at hsome
      split at hsome
      · exact absurd hsome (by simp)
      · next c rest hin =>
        have := congrArg List.length hin
        simp at this
        omega
    · rw [if_neg hb] at hsome
      cases hsome
      omega
  | succ m ih =>
    intro st st' hlen hsome hmark
    rw [fillLoop] at hsome
    by_cases hb : st.bitsLeft < MIN_GET_BITS
    · rw [if_pos hb] at hsome
      split at hsome
      · exact absurd hsome (by simp)
      · next c rest hin =>
        have hrest : rest.length ≤ m := by
          have := congrArg List.length hin
          simp at this
          omega
        by_cases hc : c = 0xFF
        · rw [if_pos hc] at hsome
          split at hsome
          · exact absurd hsome (by simp)
          · next c2 r2 hskip =>
            by_cases hc2 : c2 = 0
            · rw [if_pos hc2] at hsome
              refine ih _ _ ?_ hsome hmark
              have := r2.2
              simp only []
              omega
            · rw [if_neg hc2] at hsome
              cases hsome
              rw [noMoreBytes_unreadMarker] at hmark
              exact absurd hmark hc2
        · rw [if_neg hc] at hsome
          refine ih _ _ ?_ hsome hmark
          simp only []
          omega
    · rw [if_neg hb] at hsome
      cases hsome
      omega

/-- C5: behaviour of `jpeg_fill_bit_buffer`.
(1) Whenever it returns successfully with no marker pending, at least
`MIN_GET_BITS = 25` bits are held.
(2) An `FF 00` pair in the input is consumed as a literal `0xFF` data
byte.
(3) An `0xFF` followed by a marker code saves the code as
`unread_marker` and stops consuming input at exactly that point.
(4) Once a marker is pending, no further input bytes are ever read.
(5) A request for more bits than remain (only possible in the
marker-pending path) pads the buffer with zero bits up to 25, sets
`insufficient_data`, and records the premature-end warning only when the
flag was not already set — hence at most once per data segment. -/
theorem C5_fill_bit_buffer :
    (∀ st : FillState, ∀ n : Nat, ∀ st' : FillState,
      jpeg_fill_bit_buffer st n = some st' → st'.unreadMarker = 0 →
      25 ≤ st'.bitsLeft) ∧
    (∀ st : FillState, ∀ n : Nat, ∀ rest : List Nat,
      st.unreadMarker = 0 → st.bitsLeft < 25 → st.input = 0xFF :: 0 :: rest →
      jpeg_fill_bit_buffer st n =
        jpeg_fill_bit_buffer
          { st with
            input := rest
            getBuffer := ((st.getBuffer <<< 8) ||| 0xFF) % 2 ^ 32
            bitsLeft := st.bitsLeft + 8 } n) ∧
    (∀ st : FillState, ∀ n m : Nat, ∀ rest : List Nat,
      st.unreadMarker = 0 → st.bitsLeft < 25 → st.input = 0xFF :: m :: rest →
      m ≠ 0 → m ≠ 0xFF →
      jpeg_fill_bit_buffer st n =
        some (noMoreBytes n { st with input := rest, unreadMarker := m }) ∧
      (noMoreBytes n { st with input := rest, unreadMarker := m }).input = rest ∧
      (noMoreBytes n { st with input := rest, unreadMarker := m }).unreadMarker = m) ∧
    (∀ st : FillState, ∀ n : Nat, st.unreadMarker ≠ 0 →
      jpeg_fill_bit_buffer st n = some (noMoreBytes n st) ∧
      (noMoreBytes n st).input = st.input ∧
      (noMoreBytes n st).unreadMarker = st.unreadMarker) ∧
    (∀ st : FillState, ∀ n : Nat,
      (st.bitsLeft < n →
        (noMoreBytes n st).bitsLeft = 25 ∧
        (noMoreBytes n st).insufficientData = true ∧
        (noMoreBytes n st).getBuffer = (st.getBuffer <<< (25 - st.bitsLeft)) % 2 ^ 32 ∧
        (noMoreBytes n st).warnings =
          st.warnings + (if st.insufficientData then 0 else 1)) ∧
      (¬ st.bitsLeft < n → noMoreBytes n st = st)) := by
  refine ⟨?_, ?_, ?_, ?_, ?_⟩
  · intro st n st' hsome hmark
    unfold jpeg_fill_bit_buffer at hsome
    by_cases hm : st.unreadMarker = 0
    · rw [if_pos hm] at hsome
      exact fillLoop_bits_ge n st.input.length st st' le_rfl hsome hmark
    · rw [if_neg hm] at hsome
      cases hsome
      rw [noMoreBytes_unreadMarker] at hmark
      exact absurd hmark hm
  · intro st n rest hm hb hin
    rw [jpeg_fill_bit_buffer, if_pos hm, jpeg_fill_bit_buffer, if_pos (by exact hm)]
    rw [fillLoop, if_pos (show st.bitsLeft < MIN_GET_BITS by
      simpa [MIN_GET_BITS] using hb)]
    split
    · next hnil =>
      rw [hin] at hnil
      cases hnil
    · next c rest2 heq =>
      rw [hin] at heq
      injection heq with h1 h2
      subst h1
      subst h2
      norm_num [fillSkipFFs]
  · intro st n m rest hm hb hin hm0 hmff
    refine ⟨?_, by rw [noMoreBytes_input], by rw [noMoreBytes_unreadMarker]⟩
    rw [jpeg_fill_bit_buffer, if_pos hm]
    rw [fillLoop, if_pos (show st.bitsLeft < MIN_GET_BITS by
      simpa [MIN_GET_BITS] using hb)]
    split
    · next hnil =>
      rw [hin] at hnil
      cases hnil
    · next c rest2 heq =>
      rw [hin] at heq
      injection heq with h1 h2
      subst h1
      subst h2
      norm_num [fillSkipFFs, hmff, hm0]
  · intro st n hm
    refine ⟨?_, by rw [noMoreBytes_input], by rw [noMoreBytes_unreadMarker]⟩
    rw [jpeg_fill_bit_buffer, if_neg hm]
  · intro st n
    constructor
    · intro hlt
      unfold noMoreBytes
      rw [if_pos (show st.bitsLeft < n by simpa [MIN_GET_BITS] using hlt)]
      by_cases hins : st.insufficientData
      · rw [if_pos hins]
        refine ⟨rfl, hins, rfl, ?_⟩
        rw [if_pos hins]
        simp
      · rw [if_neg hins]
        refine ⟨rfl, rfl, rfl, ?_⟩
        rw [if_neg hins]
    · intro hge
      unfold noMoreBytes
      rw [if_neg (show ¬ st.bitsLeft < n by simpa [MIN_GET_BITS] using hge)]

/-- C5 witness: from an empty bit buffer whose input starts `FF D9`
(an EOI marker terminating the segment), the refill saves `0xD9` as the
unread marker, stops consuming input, and pads to 25 bits for a 1-bit
request. -/
theorem C5_fill_bit_buffer_witness :
    ((⟨[0xFF, 0xD9, 0x11], 0, 0, 0, false, 0⟩ : FillState).unreadMarker = 0 ∧
     (⟨[0xFF, 0xD9, 0x11], 0, 0, 0, false, 0⟩ : FillState).bitsLeft < 25 ∧
     (0xD9 : Nat) ≠ 0 ∧ (0xD9 : Nat) ≠ 0xFF) ∧
    (jpeg_fill_bit_buffer ⟨[0xFF, 0xD9, 0x11], 0, 0, 0, false, 0⟩ 1 =
       some (noMoreBytes 1
         { (⟨[0xFF, 0xD9, 0x11], 0, 0, 0, false, 0⟩ : FillState) with
             input := [0x11], unreadMarker := 0xD9 }) ∧
     (noMoreBytes 1
         { (⟨[0xFF, 0xD9, 0x11], 0, 0, 0, false, 0⟩ : FillState) with
             input := [0x11], unreadMarker := 0xD9 }).input = [0x11] ∧
     (noMoreBytes 1
         { (⟨[0xFF, 0xD9, 0x11], 0, 0, 0, false, 0⟩ : FillState) with
             input := [0x11], unreadMarker := 0xD9 }).unreadMarker = 0xD9) :=
  ⟨⟨rfl, by norm_num, by norm_num, by norm_num⟩,
    C5_fill_bit_buffer.2.2.1 ⟨[0xFF, 0xD9, 0x11], 0, 0, 0, false, 0⟩ 1 0xD9 [0x11]
      rfl (by norm_num) rfl (by norm_num) (by norm_num)⟩

/-! ## Huffman-decode termination via the maxcode sentinel (C6) -/

theorem bmask_eq {n : Nat} (hn : n ≤ 15) : bmask n = 2 ^ n - 1 := by
  interval_cases n <;> rfl

theorem huffDecodeLoop_sentinel (mc : Nat → Int) (hmc : mc 17 = 0xFFFFF) :
    ∀ fuel : Nat, ∀ st : FillState, ∀ code l : Nat,
      code < 2 ^ l → 1 ≤ l → l ≤ 17 → 17 - l ≤ fuel →
      huffDecodeLoop mc fuel st code l ≠ HuffLoopRes.fuelOut ∧
      (∀ st2 : FillState, ∀ c2 l2 : Nat,
        huffDecodeLoop mc fuel st code l = HuffLoopRes.done st2 c2 l2 →
        l2 ≤ 17) := by
  intro fuel
  induction fuel with
  | zero =>
    intro st code l hcode hl1 hl17 hfuel
    have hl : l = 17 := by omega
    subst hl
    have hng : ¬ ((code : Int) > mc 17) := by
      rw [hmc]
      have : (code : Int) < 2 ^ 17 := by exact_mod_cast hcode
      norm_num at this ⊢
      omega
    rw [huffDecodeLoop, if_neg hng]
    exact ⟨by simp, fun st2 c2 l2 h => by cases h; omega⟩
  | succ f ih =>
    intro st code l hcode hl1 hl17 hfuel
    rw [huffDecodeLoop]
    by_cases hgt : (code : Int) > mc l
    · rw [if_pos hgt]
      have hl : l ≠ 17 := by
        intro h17
        subst h17
        rw [hmc] at hgt
        have : (code : Int) < 2 ^ 17 := by exact_mod_cast hcode
        norm_num at this hgt
        omega
      cases hc : checkBitBuffer st 1 with
      | none =>
        simp only [hc]
        exact ⟨by simp, fun st2 c2 l2 h => by cases h⟩
      | some st1 =>
        simp only [hc]
        have hg1 : (getBits st1 1).1 ≤ 1 := by
          have h := Nat.and_le_right
            (n := st1.getBuffer >>> (st1.bitsLeft - 1)) (m := bmask 1)
          simpa [getBits, bmask] using h
        have hcode2 : (code <<< 1) ||| (getBits st1 1).1 < 2 ^ (l + 1) := by
          apply Nat.or_lt_two_pow
          · rw [Nat.shiftLeft_eq, pow_succ]
            omega
          · have h2 : (2:Nat) ^ (l + 1) = 2 ^ l * 2 := pow_succ 2 l
            have h3 : (1:Nat) ≤ 2 ^ l := Nat.one_le_two_pow
            omega
        exact ih (getBits st1 1).2 _ (l + 1) hcode2 (by omega) (by omega) (by omega)
    · rw [if_neg hgt]
      exact ⟨by simp, fun st2 c2 l2 h => by cases h; omega⟩

/-- C6: the derived decoder table always carries the sentinel
`maxcode[17] = 0xFFFFF`; consequently, starting from any bit-reading
state, the code-lengthening loop of `jpeg_huff_decode` never exhausts a
fuel of `17 - l` steps (it terminates with a code length of at most 17),
`jpeg_huff_decode` itself never exhausts fuel 16 for the `min_bits`
values the decoder uses (1..15), and when the loop stops at a length
beyond 16 (garbage input) the function records the bad-Huffman-code
warning and returns symbol 0 instead of failing or looping. -/
theorem C6_huff_decode_sentinel_termination :
    ∀ bits huffval : Nat → Nat,
      (jpeg_make_d_derived_tbl bits huffval).maxcode 17 = 0xFFFFF ∧
      (∀ fuel : Nat, ∀ st : FillState, ∀ code l : Nat,
        code < 2 ^ l → 1 ≤ l → l ≤ 17 → 17 - l ≤ fuel →
        huffDecodeLoop (jpeg_make_d_derived_tbl bits huffval).maxcode fuel st code l ≠
          HuffLoopRes.fuelOut ∧
        (∀ st2 : FillState, ∀ c2 l2 : Nat,
          huffDecodeLoop (jpeg_make_d_derived_tbl bits huffval).maxcode fuel st code l =
            HuffLoopRes.done st2 c2 l2 → l2 ≤ 17)) ∧
      (∀ st : FillState, ∀ minBits fuel : Nat,
        1 ≤ minBits → minBits ≤ 15 → 16 ≤ fuel →
        jpeg_huff_decode (jpeg_make_d_derived_tbl bits huffval) st minBits fuel ≠
          HuffRes.fuelOut) ∧
      (∀ st : FillState, ∀ minBits fuel : Nat, ∀ st1 : FillState,
        checkBitBuffer st minBits = some st1 →
        ∀ st2 : FillState, ∀ c2 l2 : Nat,
          huffDecodeLoop (jpeg_make_d_derived_tbl bits huffval).maxcode fuel
            (getBits st1 minBits).2 (getBits st1 minBits).1 minBits =
              HuffLoopRes.done st2 c2 l2 →
          16 < l2 →
          jpeg_huff_decode (jpeg_make_d_derived_tbl bits huffval) st minBits fuel =
            HuffRes.ok st2 true 0) := by
  intro bits huffval
  have hmc : (jpeg_make_d_derived_tbl bits huffval).maxcode 17 = 0xFFFFF := rfl
  refine ⟨hmc, huffDecodeLoop_sentinel _ hmc, ?_, ?_⟩
  · intro st minBits fuel h1 h15 hfuel
    unfold jpeg_huff_decode
    cases hc : checkBitBuffer st minBits with
    | none => simp
    | some st1 =>
      simp only []
      have hcode : (getBits st1 minBits).1 < 2 ^ minBits := by
        have hle : (getBits st1 minBits).1 ≤ bmask minBits := by
          have h := Nat.and_le_right
            (n := st1.getBuffer >>> (st1.bitsLeft - minBits)) (m := bmask minBits)
          simpa [getBits] using h
        rw [bmask_eq h15] at hle
        have : (1:Nat) ≤ 2 ^ minBits := Nat.one_le_two_pow
        omega
      have hloop := huffDecodeLoop_sentinel _ hmc fuel (getBits st1 minBits).2
        (getBits st1 minBits).1 minBits hcode h1 (by omega) (by omega)
      cases hl : huffDecodeLoop (jpeg_make_d_derived_tbl bits huffval).maxcode fuel
          (getBits st1 minBits).2 (getBits st1 minBits).1 minBits with
      | suspend => simp [hl]
      | fuelOut => exact absurd hl hloop.1
      | done st2 c2 l2 =>
        simp only [hl]
        split <;> simp
  · intro st minBits fuel st1 hc st2 c2 l2 hl hl2
    unfold jpeg_huff_decode
    rw [hc]
    simp only [hl]
    rw [if_pos hl2]

/-- C6 witness: a table with a single 2-bit code, loop entry at length 1
with fuel 16, and a 9-bit initial fetch. -/
theorem C6_huff_decode_witness :
    ((0:Nat) < 2 ^ 1 ∧ (1:Nat) ≤ 1 ∧ (1:Nat) ≤ 17 ∧ 17 - 1 ≤ 16 ∧
     (1:Nat) ≤ 9 ∧ (9:Nat) ≤ 15 ∧ (16:Nat) ≤ 16) ∧
    (jpeg_make_d_derived_tbl (fun l => if l = 2 then 1 else 0)
      (fun _ => 5)).maxcode 17 = 0xFFFFF ∧
    huffDecodeLoop (jpeg_make_d_derived_tbl (fun l => if l = 2 then 1 else 0)
        (fun _ => 5)).maxcode 16 ⟨[], 0, 0, 0, false, 0⟩ 0 1 ≠
      HuffLoopRes.fuelOut ∧
    jpeg_huff_decode (jpeg_make_d_derived_tbl (fun l => if l = 2 then 1 else 0)
        (fun _ => 5)) ⟨[], 0, 0, 0, false, 0⟩ 9 16 ≠ HuffRes.fuelOut :=
  ⟨⟨by norm_num, by norm_num, by norm_num, by norm_num, by norm_num, by norm_num,
     by norm_num⟩,
   (C6_huff_decode_sentinel_termination (fun l => if l = 2 then 1 else 0)
     (fun _ => 5)).1,
   ((C6_huff_decode_sentinel_termination (fun l => if l = 2 then 1 else 0)
     (fun _ => 5)).2.1 16 ⟨[], 0, 0, 0, false, 0⟩ 0 1 (by norm_num) (by norm_num)
     (by norm_num) (by norm_num)).1,
   (C6_huff_decode_sentinel_termination (fun l => if l = 2 then 1 else 0)
     (fun _ => 5)).2.2.1 ⟨[], 0, 0, 0, false, 0⟩ 9 16 (by norm_num) (by norm_num)
     (by norm_num)⟩

/-! ## Output-buffer accounting and MCU rewind (C4) -/

theorem emit_byte_s_free_inv {st : WorkingState} {v : Nat}
    (h : 1 ≤ st.freeInBuffer) :
    0 ≤ (emit_byte_s st v).1.freeInBuffer ∧
    ((emit_byte_s st v).2 = true → 1 ≤ (emit_byte_s st v).1.freeInBuffer) := by
  simp only [emit_byte_s, decide_eq_true_eq]
  constructor
  · omega
  · intro hne
    omega

theorem emitBitsLoop_free_inv (bits : Nat) :
    ∀ pb : Nat, ∀ st : WorkingState, 1 ≤ st.freeInBuffer →
      0 ≤ (emitBitsLoop st pb bits).1.freeInBuffer ∧
      ((emitBitsLoop st pb bits).2 = true →
        1 ≤ (emitBitsLoop st pb bits).1.freeInBuffer) := by
  induction bits using Nat.strong_induction_on with
  | _ bits ih =>
    intro pb st hst
    rw [emitBitsLoop]
    by_cases h : 8 ≤ bits
    · simp only [dif_pos h]
      have h1 := @emit_byte_s_free_inv st ((pb >>> 16) &&& 0xFF) hst
      by_cases hb1 : (emit_byte_s st ((pb >>> 16) &&& 0xFF)).2 = false
      · simp only [hb1, if_true]
        exact ⟨h1.1, by simp⟩
      · simp only [hb1, if_false]
        have hge1 : 1 ≤ (emit_byte_s st ((pb >>> 16) &&& 0xFF)).1.freeInBuffer :=
          h1.2 (by simpa using hb1)
        by_cases hc : (pb >>> 16) &&& 0xFF = 0xFF
        · simp only [hc, if_pos rfl]
          have h2 := @emit_byte_s_free_inv (emit_byte_s st 0xFF).1 0
            (by simpa [hc] using hge1)
          by_cases hb2 : (emit_byte_s (emit_byte_s st 0xFF).1 0).2 = false
          · simp only [hb2, if_true]
            exact ⟨h2.1, by simp⟩
          · simp only [hb2, if_false]
            exact ih (bits - 8) (by omega) _ _ (h2.2 (by simpa using hb2))
        · simp only [hc, if_false]
          exact ih (bits - 8) (by omega) _ _ hge1
    · simp only [dif_neg h]
      exact ⟨by omega, fun _ => hst⟩

theorem emit_bits_s_free_inv {st : WorkingState} {c s : Nat}
    (h : 1 ≤ st.freeInBuffer) :
    0 ≤ (emit_bits_s st c s).1.freeInBuffer ∧
    ((emit_bits_s st c s).2 = true → 1 ≤ (emit_bits_s st c s).1.freeInBuffer) := by
  unfold emit_bits_s
  exact emitBitsLoop_free_inv _ _ _ h

theorem flush_bits_s_free_inv {st : WorkingState} (h : 1 ≤ st.freeInBuffer) :
    0 ≤ (flush_bits_s st).1.freeInBuffer ∧
    ((flush_bits_s st).2 = true → 1 ≤ (flush_bits_s st).1.freeInBuffer) := by
  unfold flush_bits_s
  have h1 := @emit_bits_s_free_inv st 0x7F 7 h
  by_cases hb : (emit_bits_s st 0x7F 7).2 = false
  · rw [if_pos hb]
    exact ⟨h1.1, by simp⟩
  · rw [if_neg hb]
    exact ⟨le_trans (by omega) (h1.2 (by simpa using hb)),
      fun _ => h1.2 (by simpa using hb)⟩

theorem emit_restart_s_free_inv {st : WorkingState} {num comps : Nat}
    (h : 1 ≤ st.freeInBuffer) :
    0 ≤ (emit_restart_s st num comps).1.freeInBuffer ∧
    ((emit_restart_s st num comps).2 = true →
      1 ≤ (emit_restart_s st num comps).1.freeInBuffer) := by
  unfold emit_restart_s
  have h1 := @flush_bits_s_free_inv st h
  by_cases hb1 : (flush_bits_s st).2 = false
  · rw [if_pos hb1]
    exact ⟨h1.1, by simp⟩
  · rw [if_neg hb1]
    have hf1 := h1.2 (by simpa using hb1)
    have h2 := @emit_byte_s_free_inv (flush_bits_s st).1 0xFF hf1
    by_cases hb2 : (emit_byte_s (flush_bits_s st).1 0xFF).2 = false
    · rw [if_pos hb2]
      exact ⟨h2.1, by simp⟩
    · rw [if_neg hb2]
      have hf2 := h2.2 (by simpa using hb2)
      have h3 := @emit_byte_s_free_inv
        (emit_byte_s (flush_bits_s st).1 0xFF).1 (0xD0 + num) hf2
      by_cases hb3 :
          (emit_byte_s (emit_byte_s (flush_bits_s st).1 0xFF).1 (0xD0 + num)).2 = false
      · rw [if_pos hb3]
        exact ⟨h3.1, by simp⟩
      · rw [if_neg hb3]
        exact ⟨le_trans (by omega) (h3.2 (by simpa using hb3)),
          fun _ => h3.2 (by simpa using hb3)⟩

theorem runEmitPairs_free_inv :
    ∀ ps : List (Nat × Nat), ∀ st : WorkingState, 1 ≤ st.freeInBuffer →
      0 ≤ (runEmitPairs st ps).1.freeInBuffer ∧
      ((runEmitPairs st ps).2 = true → 1 ≤ (runEmitPairs st ps).1.freeInBuffer) := by
  intro ps
  induction ps with
  | nil =>
    intro st h
    simp only [runEmitPairs]
    exact ⟨by omega, fun _ => h⟩
  | cons p rest ih =>
    intro st h
    simp only [runEmitPairs]
    have h1 := @emit_bits_s_free_inv st p.1 p.2 h
    by_cases hb : (emit_bits_s st p.1 p.2).2 = true
    · rw [if_pos hb]
      exact ih _ (h1.2 hb)
    · rw [if_neg hb]
      refine ⟨h1.1, ?_⟩
      intro hcontra
      simp at hcontra

theorem encode_one_block_free_inv {st : WorkingState} {block : Nat → Int}
    {lastDcVal : Int} {dctbl actbl : CTbl} (h : 1 ≤ st.freeInBuffer) :
    0 ≤ (encode_one_block st block lastDcVal dctbl actbl).1.freeInBuffer ∧
    ((encode_one_block st block lastDcVal dctbl actbl).2 = true →
      1 ≤ (encode_one_block st block lastDcVal dctbl actbl).1.freeInBuffer) := by
  unfold encode_one_block
  exact runEmitPairs_free_inv _ _ h

theorem encodeBlocksLoop_free_inv :
    ∀ mcu : List McuBlock, ∀ st : WorkingState, 1 ≤ st.freeInBuffer →
      0 ≤ (encodeBlocksLoop st mcu).1.freeInBuffer ∧
      ((encodeBlocksLoop st mcu).2 = true →
        1 ≤ (encodeBlocksLoop st mcu).1.freeInBuffer) := by
  intro mcu
  induction mcu with
  | nil =>
    intro st h
    simp only [encodeBlocksLoop]
    exact ⟨by omega, fun _ => h⟩
  | cons b rest ih =>
    intro st h
    simp only [encodeBlocksLoop]
    have h1 := @encode_one_block_free_inv st b.block
      (st.cur.lastDcVal b.ci) b.dctbl b.actbl h
    by_cases hb : (encode_one_block st b.block (st.cur.lastDcVal b.ci) b.dctbl b.actbl).2 = true
    · rw [if_pos hb]
      exact ih _ (h1.2 hb)
    · rw [if_neg hb]
      refine ⟨h1.1, ?_⟩
      intro hcontra
      simp at hcontra

/-- C4: output-buffer accounting of the sequential Huffman encoder.
(1) `emit_byte_s` decrements `free_in_buffer` by exactly one and
requests suspension exactly when the count reaches zero; (2) when
`encode_mcu_huff` returns `FALSE`, the destination
(`next_output_byte` / `free_in_buffer`) and the saved bit-buffer / DC /
restart state are returned unchanged — state is committed only on
`TRUE`, so the encode is cleanly rewound to the start of the current
MCU; (3) starting from a positive free count the committed free count
never becomes negative. -/
theorem C4_output_buffer_safety :
    (∀ st : WorkingState, ∀ v : Nat,
      (emit_byte_s st v).1.freeInBuffer = st.freeInBuffer - 1 ∧
      ((emit_byte_s st v).2 = false ↔ (emit_byte_s st v).1.freeInBuffer = 0)) ∧
    (∀ ri ci : Nat, ∀ dest : DestMgr, ∀ ent : EntropySaved, ∀ mcu : List McuBlock,
      (encode_mcu_huff ri ci dest ent mcu).1 = false →
        (encode_mcu_huff ri ci dest ent mcu).2.1 = dest ∧
        (encode_mcu_huff ri ci dest ent mcu).2.2 = ent) ∧
    (∀ ri ci : Nat, ∀ dest : DestMgr, ∀ ent : EntropySaved, ∀ mcu : List McuBlock,
      1 ≤ dest.freeInBuffer →
      0 ≤ (encode_mcu_huff ri ci dest ent mcu).2.1.freeInBuffer) := by
  refine ⟨?_, ?_, ?_⟩
  · intro st v
    refine ⟨rfl, ?_⟩
    show (decide ((st.freeInBuffer - 1) ≠ 0) = false) ↔ st.freeInBuffer - 1 = 0
    simp
  · intro ri ci dest ent mcu hfalse
    simp only [encode_mcu_huff] at hfalse ⊢
    by_cases h0 :
        (if ri ≠ 0 ∧ ent.restartsToGo = 0 then
          emit_restart_s ⟨dest.out, dest.freeInBuffer, ent.saved⟩ ent.nextRestartNum ci
        else (⟨dest.out, dest.freeInBuffer, ent.saved⟩, true)).2 = false
    · rw [if_pos h0]
      exact ⟨rfl, rfl⟩
    · rw [if_neg h0] at hfalse ⊢
      by_cases h1 :
          (encodeBlocksLoop
            (if ri ≠ 0 ∧ ent.restartsToGo = 0 then
              emit_restart_s ⟨dest.out, dest.freeInBuffer, ent.saved⟩ ent.nextRestartNum ci
            else (⟨dest.out, dest.freeInBuffer, ent.saved⟩, true)).1 mcu).2 = false
      · rw [if_pos h1]
        exact ⟨rfl, rfl⟩
      · rw [if_neg h1] at hfalse
        split at hfalse <;> simp at hfalse
  · intro ri ci dest ent mcu hfree
    simp only [encode_mcu_huff]
    have hr0 :
        0 ≤ (if ri ≠ 0 ∧ ent.restartsToGo = 0 then
            emit_restart_s ⟨dest.out, dest.freeInBuffer, ent.saved⟩ ent.nextRestartNum ci
          else (⟨dest.out, dest.freeInBuffer, ent.saved⟩, true)).1.freeInBuffer ∧
        ((if ri ≠ 0 ∧ ent.restartsToGo = 0 then
            emit_restart_s ⟨dest.out, dest.freeInBuffer, ent.saved⟩ ent.nextRestartNum ci
          else (⟨dest.out, dest.freeInBuffer, ent.saved⟩, true)).2 = true →
          1 ≤ (if ri ≠ 0 ∧ ent.restartsToGo = 0 then
            emit_restart_s ⟨dest.out, dest.freeInBuffer, ent.saved⟩ ent.nextRestartNum ci
          else (⟨dest.out, dest.freeInBuffer, ent.saved⟩, true)).1.freeInBuffer) := by
      by_cases hcase : ri ≠ 0 ∧ ent.restartsToGo = 0
      · rw [if_pos hcase]
        exact emit_restart_s_free_inv hfree
      · rw [if_neg hcase]
        exact ⟨le_trans (show (0 : Int) ≤ 1 by norm_num) hfree, fun _ => hfree⟩
    by_cases h0 :
        (if ri ≠ 0 ∧ ent.restartsToGo = 0 then
          emit_restart_s ⟨dest.out, dest.freeInBuffer, ent.saved⟩ ent.nextRestartNum ci
        else (⟨dest.out, dest.freeInBuffer, ent.saved⟩, true)).2 = false
    · rw [if_pos h0]
      show (0 : Int) ≤ dest.freeInBuffer
      omega
    · rw [if_neg h0]
      have hr0ok := hr0.2 (by simpa using h0)
      have hr1 := encodeBlocksLoop_free_inv mcu _ hr0ok
      by_cases h1 :
          (encodeBlocksLoop
            (if ri ≠ 0 ∧ ent.restartsToGo = 0 then
              emit_restart_s ⟨dest.out, dest.freeInBuffer, ent.saved⟩ ent.nextRestartNum ci
            else (⟨dest.out, dest.freeInBuffer, ent.saved⟩, true)).1 mcu).2 = false
      · rw [if_pos h1]
        show (0 : Int) ≤ dest.freeInBuffer
        omega
      · rw [if_neg h1]
        exact hr1.1

/-- C4 witness: with a single free byte and an expired restart interval,
`encode_mcu_huff` suspends while writing the restart marker and returns
the destination and entropy state unchanged; the free count stays
nonnegative. -/
theorem C4_output_buffer_safety_witness :
    (encode_mcu_huff 1 1 ⟨[], 1⟩ ⟨⟨0, 0, fun _ => 0⟩, 0, 0⟩ []).1 = false ∧
    ((encode_mcu_huff 1 1 ⟨[], 1⟩ ⟨⟨0, 0, fun _ => 0⟩, 0, 0⟩ []).2.1 = ⟨[], 1⟩ ∧
     (encode_mcu_huff 1 1 ⟨[], 1⟩ ⟨⟨0, 0, fun _ => 0⟩, 0, 0⟩ []).2.2 =
       ⟨⟨0, 0, fun _ => 0⟩, 0, 0⟩) ∧
    (1 ≤ (1 : Int) ∧
     0 ≤ (encode_mcu_huff 1 1 ⟨[], 1⟩ ⟨⟨0, 0, fun _ => 0⟩, 0, 0⟩ []).2.1.freeInBuffer) := by
  have hev : (encode_mcu_huff 1 1 ⟨[], 1⟩ ⟨⟨0, 0, fun _ => 0⟩, 0, 0⟩ []).1 = false := by
    simp [encode_mcu_huff, emit_restart_s, flush_bits_s, emit_bits_s, emitBitsLoop,
      emit_byte_s]
  refine ⟨hev, C4_output_buffer_safety.2.1 1 1 _ _ [] hev,
    by decide, C4_output_buffer_safety.2.2 1 1 ⟨[], 1⟩ _ [] (by decide)⟩

/-! ## Theorems: C7, C9, C10, C8 -/

/-- `qualityClamped` is exactly `min (max q 1) 100`. -/
theorem qualityClamped_eq_clamp (q : Int) :
    qualityClamped q = min (max q 1) 100 := by
  unfold qualityClamped
  simp only []
  split_ifs <;> omega

/-- `jpeg_quality_scaling` factors through `qualityClamped`. -/
theorem jpeg_quality_scaling_eq (q : Int) :
    jpeg_quality_scaling q =
      (if qualityClamped q < 50 then 5000 / qualityClamped q
       else 200 - qualityClamped q * 2) := rfl

/-- C10: `jpeg_quality_scaling` clamps its argument to `[1,100]` before
using it, so it is invariant under pre-clamping, the internal divisor is
at least 1 (never a division by zero), and the function factors through
the clamped value. -/
theorem C10_quality_clamp :
    ∀ q : Int,
      jpeg_quality_scaling q = jpeg_quality_scaling (min (max q 1) 100) ∧
      1 ≤ qualityClamped q ∧ qualityClamped q ≤ 100 ∧
      jpeg_quality_scaling q =
        (if qualityClamped q < 50 then 5000 / qualityClamped q
         else 200 - qualityClamped q * 2) := by
  intro q
  have hc : qualityClamped (min (max q 1) 100) = qualityClamped q := by
    rw [qualityClamped_eq_clamp, qualityClamped_eq_clamp]
    omega
  refine ⟨?_, ?_, ?_, jpeg_quality_scaling_eq q⟩
  · rw [jpeg_quality_scaling_eq, jpeg_quality_scaling_eq, hc]
  · rw [qualityClamped_eq_clamp]; omega
  · rw [qualityClamped_eq_clamp]; omega

/-- C7: for quality `q ∈ [1,100]` the scaling percentage is `5000/q` for
`q ≤ 50` and `200 - 2q` above (the source branches at `q < 50`, but at
`q = 50` both formulas give 100), and each quantization entry of
`jpeg_add_quant_table` equals `(basic*scale + 50)/100` clamped to
`1..255` when baseline is forced, and to `1..32767` otherwise
(`scale ≥ 0`, as produced by the scaling curve). -/
theorem C7_quality_scaling_and_quant_entries :
    ∀ q : Int, 1 ≤ q → q ≤ 100 →
      (jpeg_quality_scaling q =
        (if q ≤ 50 then 5000 / q else 200 - 2 * q)) ∧
      (∀ basic : Nat, ∀ scale : Int, 0 ≤ scale →
        jpeg_add_quant_entry basic scale true =
          min (max (((basic : Int) * scale + 50) / 100) 1) 255 ∧
        jpeg_add_quant_entry basic scale false =
          min (max (((basic : Int) * scale + 50) / 100) 1) 32767) := by
  intro q hq1 hq100
  constructor
  · unfold jpeg_quality_scaling
    simp only []
    have h1 : ¬ (q ≤ 0) := by omega
    have h2 : ¬ (q > 100) := by omega
    rw [if_neg h1, if_neg h2]
    by_cases h50 : q < 50
    · rw [if_pos h50, if_pos (by omega)]
    · rw [if_neg h50]
      by_cases h50e : q ≤ 50
      · have : q = 50 := by omega
        subst this
        norm_num
      · rw [if_neg h50e]; ring
  · intro basic scale hscale
    have hpos : (0 : Int) ≤ (basic : Int) * scale + 50 := by positivity
    have hdiv : (0 : Int) ≤ ((basic : Int) * scale + 50) / 100 :=
      Int.ediv_nonneg hpos (by norm_num)
    unfold jpeg_add_quant_entry
    constructor <;> simp only [Bool.and_eq_true, decide_eq_true_eq] <;>
      split_ifs <;> simp_all <;> omega

/-- C9: the dimension checks of both the encoder (`initial_setup`,
`jcmaster.c`) and the decoder (`get_sof` empty-image check plus
`initial_setup`, `jdinput.c`/`jdmarker.c`) accept an image of positive
dimensions exactly when both width and height are at most 65500
(`JPEG_MAX_DIMENSION`); in particular any width or height of 65501 or
more is rejected. Zero-dimension "images" are rejected separately as
empty images, so every actual image (≥ 1 pixel each way) with dimensions
≤ 65500 is accepted. -/
theorem C9_dimension_compliance :
    ∀ w h : Nat, 1 ≤ w → 1 ≤ h →
      (encoderDimChecks w h = true ↔ (w ≤ 65500 ∧ h ≤ 65500)) ∧
      (decoderDimChecks w h = true ↔ (w ≤ 65500 ∧ h ≤ 65500)) ∧
      (65501 ≤ w ∨ 65501 ≤ h →
        encoderDimChecks w h = false ∧ decoderDimChecks w h = false) := by
  intro w h hw hh
  unfold encoderDimChecks decoderDimChecks JPEG_MAX_DIMENSION
  refine ⟨?_, ?_, ?_⟩ <;>
    simp only [Bool.and_eq_true, decide_eq_true_eq, Bool.and_eq_false_iff,
      decide_eq_false_iff_not] <;> omega

/-- C9 witness: a 65500×65500 image passes both checks and the bound is
as claimed. -/
theorem C9_dimension_compliance_witness :
    (1 ≤ 65500 ∧ 1 ≤ 65500) ∧
      ((encoderDimChecks 65500 65500 = true ↔ (65500 ≤ 65500 ∧ 65500 ≤ 65500)) ∧
       (decoderDimChecks 65500 65500 = true ↔ (65500 ≤ 65500 ∧ 65500 ≤ 65500)) ∧
       (65501 ≤ 65500 ∨ 65501 ≤ 65500 →
         encoderDimChecks 65500 65500 = false ∧
         decoderDimChecks 65500 65500 = false)) :=
  ⟨⟨by decide, by decide⟩,
    C9_dimension_compliance 65500 65500 (by decide) (by decide)⟩

/-- C8: `jsc_compress` does call `jsc_compress_rst` with
`n_restart_sections = height/64`, but `set_restart_sections` computes the
"number of iMCU rows" from `cinfo->image_width` — contradicting both its
own comment ("determine image height in MCU blocks") and the variable
names `MCU_rows_in_scan` / `restart_in_rows` — so for the 64×256
grayscale image (v sampling factor 1, 4 restart sections) it sets
`restart_in_rows = ceil(ceil(64/8)/4) = 2` where the claimed
height-based computation gives `ceil(ceil(256/8)/4) = 8`. -/
theorem C8_restart_sections_uses_width :
    jscNRestartSections 256 = 4 ∧
    set_restart_sections [1] 64 0 4 = 2 ∧
    claimed_set_restart_sections [1] 256 0 4 = 8 ∧
    set_restart_sections [1] 64 0 4 ≠ claimed_set_restart_sections [1] 256 0 4 := by
  refine ⟨rfl, by decide, by decide, by decide⟩

/-- C2 counterexample: at desired restart number 0, the found marker
`0xD1` (= RST1, the desired number plus 1) takes action 3 — the marker is
left unread and the function returns with the state untouched so the
entropy decoder processes an empty segment — whereas the claim's
decision table says a restart within ±1/±2 causes scanning forward
(action 2, consuming input via `next_marker`). -/
theorem C2_resync_counterexample :
    resyncAction 0xD1 0 = 3 ∧ resyncActionClaim 0xD1 0 = 2 ∧
    jpeg_resync_to_restart ⟨[0xAB, 0xFF, 0xD2], 0xD1, 0⟩ 0 =
      some ⟨[0xAB, 0xFF, 0xD2], 0xD1, 0⟩ := by
  refine ⟨by decide, by decide, ?_⟩
  rw [jpeg_resync_to_restart]
  norm_num [resyncAction]

/-- C2 amended: `jpeg_resync_to_restart` decides as follows: a found
byte below `0xC0` (not a valid marker) causes scanning forward to the
next marker; a restart marker at `desired+1` or `desired+2` (mod 8) is
*left unread*, so the entropy decoder processes empty segments injecting
zeros; a restart marker at `desired-1` or `desired-2` (mod 8) causes
scanning forward; any other valid non-restart marker is left unread; any
other restart marker (the desired one re-encountered while scanning, or
more than 2 counts away) is discarded and decoding continues. -/
theorem C2_resync_decision_table :
    ∀ st : MarkerState, ∀ desired : Nat,
      (st.unreadMarker < 0xC0 →
        resyncAction st.unreadMarker desired = 2 ∧
        jpeg_resync_to_restart st desired =
          (next_marker st).bind (fun st2 => jpeg_resync_to_restart st2 desired)) ∧
      (0xC0 ≤ st.unreadMarker → (st.unreadMarker < 0xD0 ∨ 0xD7 < st.unreadMarker) →
        resyncAction st.unreadMarker desired = 3 ∧
        jpeg_resync_to_restart st desired = some st) ∧
      ((st.unreadMarker = 0xD0 + (desired + 1) % 8 ∨
        st.unreadMarker = 0xD0 + (desired + 2) % 8) →
        resyncAction st.unreadMarker desired = 3 ∧
        jpeg_resync_to_restart st desired = some st) ∧
      ((st.unreadMarker = 0xD0 + (desired + 7) % 8 ∨
        st.unreadMarker = 0xD0 + (desired + 6) % 8) →
        resyncAction st.unreadMarker desired = 2 ∧
        jpeg_resync_to_restart st desired =
          (next_marker st).bind (fun st2 => jpeg_resync_to_restart st2 desired)) ∧
      (0xD0 ≤ st.unreadMarker → st.unreadMarker ≤ 0xD7 →
        st.unreadMarker ≠ 0xD0 + (desired + 1) % 8 →
        st.unreadMarker ≠ 0xD0 + (desired + 2) % 8 →
        st.unreadMarker ≠ 0xD0 + (desired + 7) % 8 →
        st.unreadMarker ≠ 0xD0 + (desired + 6) % 8 →
        resyncAction st.unreadMarker desired = 1 ∧
        jpeg_resync_to_restart st desired = some { st with unreadMarker := 0 }) := by
  intro st desired
  have hbind : resyncAction st.unreadMarker desired = 2 →
      jpeg_resync_to_restart st desired =
        (next_marker st).bind (fun st2 => jpeg_resync_to_restart st2 desired) := by
    intro hact
    rw [jpeg_resync_to_restart]
    simp only [hact, next_marker]
    cases hm : nextMarkerLoop st.input st.discardedBytes with
    | none => simp
    | some v =>
      obtain ⟨c, d, r⟩ := v
      by_cases hd : d ≠ 0 <;> simp [hd]
  refine ⟨?_, ?_, ?_, ?_, ?_⟩
  · intro h
    have hact : resyncAction st.unreadMarker desired = 2 := by
      unfold resyncAction; rw [if_pos h]
    exact ⟨hact, hbind hact⟩
  · intro h1 h2
    have hact : resyncAction st.unreadMarker desired = 3 := by
      unfold resyncAction
      rw [if_neg (by omega), if_pos h2]
    refine ⟨hact, ?_⟩
    rw [jpeg_resync_to_restart]
    simp [hact]
  · intro h
    have hact : resyncAction st.unreadMarker desired = 3 := by
      unfold resyncAction
      rw [if_neg (by omega), if_neg (by omega), if_pos h]
    refine ⟨hact, ?_⟩
    rw [jpeg_resync_to_restart]
    simp [hact]
  · intro h
    have hact : resyncAction st.unreadMarker desired = 2 := by
      unfold resyncAction
      rw [if_neg (by omega), if_neg (by omega), if_neg (by omega), if_pos h]
    exact ⟨hact, hbind hact⟩
  · intro h1 h2 h3 h4 h5 h6
    have hact : resyncAction st.unreadMarker desired = 1 := by
      unfold resyncAction
      rw [if_neg (by omega), if_neg (by omega), if_neg (by tauto), if_neg (by tauto)]
    refine ⟨hact, ?_⟩
    rw [jpeg_resync_to_restart]
    simp [hact]

/-- C2 witness: the amended decision table applied to the concrete state
holding marker `0xD4` (= RST4) with desired restart number 5 — a restart
one behind, so the code scans forward. -/
theorem C2_resync_decision_table_witness :
    ((0xD4 : Nat) = 0xD0 + (5 + 7) % 8 ∨ (0xD4 : Nat) = 0xD0 + (5 + 6) % 8) ∧
      (resyncAction 0xD4 5 = 2 ∧
       jpeg_resync_to_restart ⟨[0xFF, 0xD5], 0xD4, 0⟩ 5 =
         (next_marker ⟨[0xFF, 0xD5], 0xD4, 0⟩).bind
           (fun st2 => jpeg_resync_to_restart st2 5)) :=
  ⟨by decide,
    (C2_resync_decision_table ⟨[0xFF, 0xD5], 0xD4, 0⟩ 5).2.2.2.1 (by decide)⟩

/-- C7 witness: instantiation at quality 85, basic entry 16, the
resulting scale 30. -/
theorem C7_quality_witness :
    ((1 : Int) ≤ 85 ∧ (85 : Int) ≤ 100 ∧ (0 : Int) ≤ 30) ∧
      (jpeg_quality_scaling 85 =
        (if (85 : Int) ≤ 50 then 5000 / 85 else 200 - 2 * 85)) ∧
      jpeg_add_quant_entry 16 30 true =
        min (max (((16 : Int) * 30 + 50) / 100) 1) 255 := by
  refine ⟨⟨by decide, by decide, by decide⟩, ?_, ?_⟩
  · exact (C7_quality_scaling_and_quant_entries 85 (by decide) (by decide)).1
  · exact ((C7_quality_scaling_and_quant_entries 85 (by decide)
      (by decide)).2 16 30 (by decide)).1

end Jsc
